import Mathlib

/-!
Shallow embedding of `leaderboard/skiplist.go` (package `leaderboard` of
`gamifykit`): a skip list keyed by (score descending, user ascending),
together with the `Board` operations `Update`, `Remove`, `TopN`, `Get`.

Modelling conventions:
* `core.UserID` (a Go `string`) is `String`; scores (`int64`, only ever
  compared, never subject to arithmetic) are `Int`.
* The Go heap of `node` values is an explicit arena `Heap`: node pointers
  become indices (`Nat`), `nil` becomes `none`, the head sentinel is index 0,
  and `&node{...}` allocates at index `size`.
* The per-instance PRNG is a stream of coin flips `rng : Nat → Bool`, where
  `rng k` stands for the k-th draw satisfying `Float64() < pFactor`; `pos`
  is the number of draws consumed so far.
* The unbounded `for` loops of the Go code walk a pointer chain; they are
  given fuel `heap.size`, which suffices on every well-formed state because
  an acyclic chain cannot revisit a node.
* `sync.RWMutex` has no observable sequential content and is not modelled.
-/

set_option maxHeartbeats 1000000

namespace GamifyKit

abbrev UserID := String

/-- `Entry` from `leaderboard.go`: `{ User core.UserID; Score int64 }`. -/
structure Entry where
  user : UserID
  score : Int
deriving DecidableEq, Repr

/-- `const maxLevel = 16` -/
def maxLevel : Nat := 16

/-- `node` from `skiplist.go`: one Entry plus forward links (`nil` = `none`).
The Go field is a fixed array `[maxLevel]*node`; only slots `< maxLevel`
are ever read, so a total function is used. -/
structure Node where
  e : Entry
  next : Nat → Option Nat

/-- The Go zero value `node{}`: zero Entry, all links nil. -/
def zeroNode : Node := { e := { user := "", score := 0 }, next := fun _ => none }

/-- The arena of allocated nodes: Go's heap, with pointers as indices.
Index 0 is the head sentinel. -/
structure Heap where
  node : Nat → Node
  size : Nat

/-- Read a forward link: `idx.next[lvl]`. -/
def Heap.link (h : Heap) (idx lvl : Nat) : Option Nat := (h.node idx).next lvl

/-- Read a node's entry: `idx.e`. -/
def Heap.entry (h : Heap) (idx : Nat) : Entry := (h.node idx).e

/-- Allocate a fresh node (Go `&node{...}`): it lives at index `size`. -/
def Heap.push (h : Heap) (n : Node) : Heap :=
  { node := fun i => if i = h.size then n else h.node i, size := h.size + 1 }

/-- Write one forward link: `idx.next[lvl] = v`. -/
def Heap.setNext (h : Heap) (idx lvl : Nat) (v : Option Nat) : Heap :=
  { h with
    node := fun i =>
      if i = idx then
        { h.node i with next := fun j => if j = lvl then v else (h.node i).next j }
      else h.node i }

/-- The `SkipList` struct: head sentinel (always index 0 of the heap),
current level `lvl`, the user index `byUser`, and the PRNG stream with its
current position. -/
structure SkipList where
  heap : Heap
  lvl : Nat
  byUser : List (UserID × Nat)
  rng : Nat → Bool
  pos : Nat

/-- `NewSkipList`: head sentinel `&node{}`, level 1, empty user index, and a
freshly seeded generator (the seed determines the flip stream `rng`). -/
def NewSkipList (rng : Nat → Bool) : SkipList :=
  { heap := { node := fun _ => zeroNode, size := 1 }
    lvl := 1
    byUser := []
    rng := rng
    pos := 0 }

/-- The loop of `randomLevel`: `for lvl < maxLevel && s.rng.Float64() < pFactor
{ lvl++ }`; returns the level together with the new stream position. Go's `&&`
short-circuits: `Float64()` is drawn (and the stream advanced) exactly when
`lvl < maxLevel` holds, including on the final failing test. -/
def randomLevelAux (rng : Nat → Bool) (pos lvl : Nat) : Nat × Nat :=
  if h : lvl < maxLevel then
    if rng pos = true then randomLevelAux rng (pos + 1) (lvl + 1)
    else (lvl, pos + 1)
  else (lvl, pos)
termination_by maxLevel - lvl
decreasing_by omega

/-- `randomLevel`: starts the candidate level at 1. -/
def randomLevel (s : SkipList) : Nat × Nat := randomLevelAux s.rng s.pos 1

/-- `less` from `skiplist.go`: descending score, ties broken by ascending
user id. -/
def less (a b : Entry) : Bool :=
  if a.score = b.score then decide (a.user < b.user) else decide (b.score < a.score)

/-- The inner search loop at one level:
`for cur.next[i] != nil && less(cur.next[i].e, e) { cur = cur.next[i] }`. -/
def walkLevel (h : Heap) (e : Entry) (i cur : Nat) : Nat → Nat
  | 0 => cur
  | fuel + 1 =>
    match h.link cur i with
    | none => cur
    | some nxt => if less (h.entry nxt) e then walkLevel h e i nxt fuel else cur

/-- The outer search loop `for i := s.lvl - 1; i >= 0; i--`, recording the
update vector (`update[i] = cur` after the level-`i` walk). A call with
count `cnt` processes levels `cnt-1, …, 0`. Slots never written stay `none`
(Go: nil). -/
def searchLoop (h : Heap) (e : Entry) (cur : Nat) (upd : Nat → Option Nat) :
    Nat → (Nat → Option Nat)
  | 0 => upd
  | cnt + 1 =>
    let c := walkLevel h e cnt cur h.size
    searchLoop h e c (fun j => if j = cnt then some c else upd j) cnt

/-- `for i := s.lvl; i < lvl; i++ { update[i] = s.head }` (head = index 0). -/
def growUpdate (upd : Nat → Option Nat) (lo hi : Nat) : Nat → Option Nat :=
  fun j => if lo ≤ j ∧ j < hi then some 0 else upd j

/-- The splice loop of `Update`:
`for i := 0; i < lvl; i++ { n.next[i] = update[i].next[i]; update[i].next[i] = n }`. -/
def spliceLoop (h : Heap) (nIdx : Nat) (upd : Nat → Option Nat) : Nat → Heap
  | 0 => h
  | i + 1 =>
    let h0 := spliceLoop h nIdx upd i
    let u := (upd i).getD 0
    let t := h0.link u i
    let h1 := h0.setNext nIdx i t
    h1.setNext u i (some nIdx)

/-- The unlink loop of `removeLocked`:
`for i := 0; i < s.lvl; i++ { if update[i].next[i] == target { update[i].next[i] = target.next[i] } }`. -/
def unlinkLoop (h : Heap) (target : Nat) (upd : Nat → Option Nat) : Nat → Heap
  | 0 => h
  | i + 1 =>
    let h0 := unlinkLoop h target upd i
    let u := (upd i).getD 0
    if h0.link u i = some target then h0.setNext u i (h0.link target i) else h0

/-- The shrink loop of `removeLocked`:
`for s.lvl > 1 && s.head.next[s.lvl-1] == nil { s.lvl-- }`. -/
def shrinkLvl (h : Heap) : Nat → Nat
  | 0 => 0
  | 1 => 1
  | l + 2 => if h.link 0 (l + 1) = none then shrinkLvl h (l + 1) else l + 2

/-- Lookup in the Go map `byUser` (keys are unique on every reachable state). -/
def lookupUser : List (UserID × Nat) → UserID → Option Nat
  | [], _ => none
  | (u, v) :: rest, x => if u = x then some v else lookupUser rest x

/-- `delete(s.byUser, user)`. -/
def eraseUser (l : List (UserID × Nat)) (x : UserID) : List (UserID × Nat) :=
  l.filter (fun p => p.1 ≠ x)

/-- `s.byUser[user] = n`. -/
def insertUser (l : List (UserID × Nat)) (x : UserID) (v : Nat) :
    List (UserID × Nat) :=
  (x, v) :: eraseUser l x

/-- `removeLocked(user, e)`: search, read `target := update[0].next[0]`,
bail out unless it is the user's node, unlink, delete from the user index,
shrink the level. -/
def removeLocked (s : SkipList) (user : UserID) (e : Entry) : SkipList :=
  let upd := searchLoop s.heap e 0 (fun _ => none) s.lvl
  match s.heap.link ((upd 0).getD 0) 0 with
  | none => s
  | some target =>
    if (s.heap.entry target).user ≠ user then s
    else
      let h := unlinkLoop s.heap target upd s.lvl
      { s with
        heap := h
        lvl := shrinkLvl h s.lvl
        byUser := eraseUser s.byUser user }

/-- The insertion half of `Update` (everything after the optional removal of
the old node): search, draw a level, grow, allocate, splice, index. -/
def insertFresh (s : SkipList) (e : Entry) : SkipList :=
  let upd := searchLoop s.heap e 0 (fun _ => none) s.lvl
  let lp := randomLevelAux s.rng s.pos 1
  let upd2 := if s.lvl < lp.1 then growUpdate upd s.lvl lp.1 else upd
  let slvl := if s.lvl < lp.1 then lp.1 else s.lvl
  let nIdx := s.heap.size
  let h0 := s.heap.push { e := e, next := fun _ => none }
  let h1 := spliceLoop h0 nIdx upd2 lp.1
  { heap := h1
    lvl := slvl
    byUser := insertUser s.byUser e.user nIdx
    rng := s.rng
    pos := lp.2 }

/-- `Update(user, score)`: remove the old node if the user is present, then
insert afresh. -/
def Update (s : SkipList) (user : UserID) (score : Int) : SkipList :=
  let s1 := match lookupUser s.byUser user with
    | some old => removeLocked s user (s.heap.entry old)
    | none => s
  insertFresh s1 { user := user, score := score }

/-- `Remove(user)`. -/
def Remove (s : SkipList) (user : UserID) : SkipList :=
  match lookupUser s.byUser user with
  | some n => removeLocked s user (s.heap.entry n)
  | none => s

/-- The collection loop of `TopN`:
`for cur != nil && len(out) < n { out = append(out, cur.e); cur = cur.next[0] }`. -/
def topNAux (h : Heap) (n : Int) : Option Nat → Nat → List Entry → List Entry
  | _, 0, out => out
  | none, _, out => out
  | some c, fuel + 1, out =>
    if (out.length : Int) < n then topNAux h n (h.link c 0) fuel (out ++ [h.entry c])
    else out

/-- `TopN(n)`: `nil` for `n ≤ 0`, otherwise walk the level-0 chain. -/
def TopN (s : SkipList) (n : Int) : List Entry :=
  if n ≤ 0 then [] else topNAux s.heap n (s.heap.link 0 0) s.heap.size []

/-- `Get(user)`: user-index lookup; zero Entry and `false` when absent. -/
def Get (s : SkipList) (user : UserID) : Entry × Bool :=
  match lookupUser s.byUser user with
  | some n => (s.heap.entry n, true)
  | none => ({ user := "", score := 0 }, false)

/-- One `Board` call that mutates the state. -/
inductive Op where
  | upd (user : UserID) (score : Int)
  | rem (user : UserID)

/-- Apply one mutating call. -/
def applyOp (s : SkipList) : Op → SkipList
  | .upd u sc => Update s u sc
  | .rem u => Remove s u

/-- Run a finite sequence of `Update`/`Remove` calls. -/
def applyOps (ops : List Op) (s : SkipList) : SkipList := ops.foldl applyOp s

/-- The level-0 chain of node indices, starting from the head sentinel. -/
def chainAux (h : Heap) : Option Nat → Nat → List Nat
  | none, _ => []
  | some _, 0 => []
  | some c, fuel + 1 => c :: chainAux h (h.link c 0) fuel

/-- The level-0 chain of the board. -/
def chain0 (s : SkipList) : List Nat := chainAux s.heap (s.heap.link 0 0) s.heap.size

/-- All entries of the board, in ranked order. -/
def entries (s : SkipList) : List Entry := (chain0 s).map s.heap.entry

/-- The entry currently indexed for a user, if any (what `Get` reads). -/
def scoreOf (s : SkipList) (u : UserID) : Option Entry :=
  (lookupUser s.byUser u).map s.heap.entry

/-- The level-`i` link function of a heap, as a partial successor map. -/
def lk (h : Heap) (i : Nat) : Nat → Option Nat := fun x => h.link x i

/-- Comparator lifted to node indices. -/
def pLess (h : Heap) (a b : Nat) : Prop := less (h.entry a) (h.entry b) = true

/-- "This node's entry sorts before `e`" — the guard of the search walks. -/
def pBefore (h : Heap) (e : Entry) (x : Nat) : Bool := less (h.entry x) e

/-- The last index of `L` whose entry sorts before `e` (the head `0` when
there is none): where the update vector points at one level. -/
def predIdx (h : Heap) (e : Entry) (L : List Nat) : Nat :=
  (L.takeWhile (pBefore h e)).getLastD 0

/-- `IsChain f a L`: starting from `a` and repeatedly following `f`, one
visits exactly the nodes of `L` and then hits `none`. -/
def IsChain (f : Nat → Option Nat) : Nat → List Nat → Prop
  | a, [] => f a = none
  | a, b :: l => f a = some b ∧ IsChain f b l

/-- Well-formedness of a skip-list state, witnessed by the per-level chains
`C i` (the list of node indices linked at level `i`, head excluded):
chains are linked, nested, sorted, in bounds, coherent with the user index,
and the current level is exactly the highest level with content. -/
structure ChainsOK (s : SkipList) (C : Nat → List Nat) : Prop where
  chain : ∀ i, IsChain (lk s.heap i) 0 (C i)
  sub : ∀ i, List.Sublist (C (i + 1)) (C i)
  sorted : (C 0).Pairwise (pLess s.heap)
  bounds : ∀ a ∈ C 0, 0 < a ∧ a < s.heap.size
  user_idx : ∀ a ∈ C 0, lookupUser s.byUser (s.heap.entry a).user = some a
  idx_user : ∀ u v, lookupUser s.byUser u = some v →
    v ∈ C 0 ∧ (s.heap.entry v).user = u
  lvl_lb : 1 ≤ s.lvl
  lvl_ub : s.lvl ≤ maxLevel
  top_empty : ∀ i, s.lvl ≤ i → C i = []
  top_content : s.lvl = 1 ∨ C (s.lvl - 1) ≠ []
  size_pos : 0 < s.heap.size

/-- A state is well-formed when some family of chains witnesses it. -/
def WF (s : SkipList) : Prop := ∃ C, ChainsOK s C

/-- Insert an entry into a ranked entry list at its sorted position. -/
def insSorted (e : Entry) (l : List Entry) : List Entry :=
  l.takeWhile (fun x => less x e) ++ e :: l.dropWhile (fun x => less x e)

/-- Drop the (at most one) entry of a given user from a ranked entry list. -/
def delUser (u : UserID) (l : List Entry) : List Entry :=
  l.filter (fun x => x.user ≠ u)

/-- The number of consecutive successful flips from `pos`, capped at `c`. -/
def streak (rng : Nat → Bool) : Nat → Nat → Nat
  | _, 0 => 0
  | pos, c + 1 => if rng pos then streak rng (pos + 1) c + 1 else 0

/-! ## Order facts about the comparator -/

theorem less_iff {a b : Entry} :
    less a b = true ↔ b.score < a.score ∨ (a.score = b.score ∧ a.user < b.user) := by
  unfold less
  by_cases hs : a.score = b.score
  · rw [if_pos hs]
    simp only [decide_eq_true_eq]
    constructor
    · intro h; exact Or.inr ⟨hs, h⟩
    · rintro (h | ⟨_, h⟩)
      · omega
      · exact h
  · rw [if_neg hs]
    simp only [decide_eq_true_eq]
    constructor
    · intro h; exact Or.inl h
    · rintro (h | ⟨h, _⟩)
      · exact h
      · exact absurd h hs

theorem less_irrefl (a : Entry) : less a a = false := by
  unfold less
  simp

theorem less_trans {a b c : Entry} (h1 : less a b = true) (h2 : less b c = true) :
    less a c = true := by
  rw [less_iff] at h1 h2 ⊢
  rcases h1 with h1 | ⟨h1s, h1u⟩ <;> rcases h2 with h2 | ⟨h2s, h2u⟩
  · exact Or.inl (lt_trans h2 h1)
  · exact Or.inl (h2s ▸ h1)
  · exact Or.inl (h1s ▸ h2)
  · exact Or.inr ⟨h1s.trans h2s, lt_trans h1u h2u⟩

theorem less_asymm {a b : Entry} (h1 : less a b = true) : less b a = false := by
  rw [less_iff] at h1
  rw [Bool.eq_false_iff]
  intro h2
  rw [less_iff] at h2
  rcases h1 with h1 | ⟨h1s, h1u⟩ <;> rcases h2 with h2 | ⟨h2s, h2u⟩
  · omega
  · omega
  · omega
  · exact absurd (lt_trans h1u h2u) (lt_irrefl _)

theorem less_total {a b : Entry} (hne : a ≠ b) :
    less a b = true ∨ less b a = true := by
  by_cases hs : a.score = b.score
  · have hu : a.user ≠ b.user := by
      intro h
      apply hne
      cases a; cases b
      simp_all
    rcases hu.lt_or_lt with h | h
    · exact Or.inl (less_iff.mpr (Or.inr ⟨hs, h⟩))
    · exact Or.inr (less_iff.mpr (Or.inr ⟨hs.symm, h⟩))
  · rcases Ne.lt_or_lt (fun h => hs h) with h | h
    · exact Or.inr (less_iff.mpr (Or.inl h))
    · exact Or.inl (less_iff.mpr (Or.inl h))

theorem less_ne {a b : Entry} (h : less a b = true) : a ≠ b := by
  intro he
  rw [he, less_irrefl] at h
  exact Bool.false_ne_true h

/-! ## List helpers -/

theorem takeWhile_append_all {α : Type} {p : α → Bool} :
    ∀ {l₁ l₂ : List α}, (∀ x ∈ l₁, p x = true) →
      (l₁ ++ l₂).takeWhile p = l₁ ++ l₂.takeWhile p := by
  intro l₁
  induction l₁ with
  | nil => intro l₂ _; rfl
  | cons a l ih =>
    intro l₂ h
    have ha := h a (by simp)
    simp only [List.cons_append, List.takeWhile_cons, ha, if_true]
    rw [ih (fun x hx => h x (by simp [hx]))]

theorem dropWhile_append_all {α : Type} {p : α → Bool} :
    ∀ {l₁ l₂ : List α}, (∀ x ∈ l₁, p x = true) →
      (l₁ ++ l₂).dropWhile p = l₂.dropWhile p := by
  intro l₁
  induction l₁ with
  | nil => intro l₂ _; rfl
  | cons a l ih =>
    intro l₂ h
    have ha := h a (by simp)
    simp only [List.cons_append, List.dropWhile_cons, ha, if_true]
    exact ih (fun x hx => h x (by simp [hx]))

theorem getLastD_append_cons {α : Type} :
    ∀ (l₁ : List α) (x : α) (l₂ : List α) (d : α),
      (l₁ ++ x :: l₂).getLastD d = l₂.getLastD x := by
  intro l₁
  induction l₁ with
  | nil => intro x l₂ d; exact List.getLastD_cons d x l₂
  | cons a l ih =>
    intro x l₂ d
    rw [List.cons_append, List.getLastD_cons]
    exact ih x l₂ a

theorem getLastD_cases {α : Type} :
    ∀ (l : List α) (d : α), l.getLastD d = d ∨ l.getLastD d ∈ l := by
  intro l
  induction l with
  | nil => intro d; exact Or.inl rfl
  | cons a l ih =>
    intro d
    rw [List.getLastD_cons]
    rcases ih a with h | h
    · exact Or.inr (by rw [h]; exact List.mem_cons_self a l)
    · exact Or.inr (List.mem_cons_of_mem a h)

theorem map_takeWhile {α β : Type} (f : α → β) (p : β → Bool) :
    ∀ (l : List α), (l.map f).takeWhile p = (l.takeWhile (fun x => p (f x))).map f := by
  intro l
  induction l with
  | nil => rfl
  | cons a l ih =>
    simp only [List.map_cons, List.takeWhile_cons]
    by_cases h : p (f a) <;> simp [h, ih]

theorem map_dropWhile {α β : Type} (f : α → β) (p : β → Bool) :
    ∀ (l : List α), (l.map f).dropWhile p = (l.dropWhile (fun x => p (f x))).map f := by
  intro l
  induction l with
  | nil => rfl
  | cons a l ih =>
    simp only [List.map_cons, List.dropWhile_cons]
    by_cases h : p (f a) <;> simp [h, ih]

theorem map_filter_congr {α β : Type} (f : α → β) (q : β → Bool) (r : α → Bool) :
    ∀ (l : List α), (∀ x ∈ l, q (f x) = r x) →
      (l.map f).filter q = (l.filter r).map f := by
  intro l
  induction l with
  | nil => intro _; rfl
  | cons a l ih =>
    intro h
    have ha := h a (by simp)
    simp only [List.map_cons, List.filter_cons, ha]
    by_cases hr : r a <;>
      simp [hr, ih (fun x hx => h x (by simp [hx]))]

theorem pairwise_dropWhile_not {α : Type} {R : α → α → Prop} {p : α → Bool} :
    ∀ {l : List α}, (∀ a b, R a b → p b = true → p a = true) → l.Pairwise R →
      ∀ x ∈ l.dropWhile p, p x = false := by
  intro l
  induction l with
  | nil => intro _ _ x hx; simp at hx
  | cons a l ih =>
    intro hRp hpw x hx
    rw [List.dropWhile_cons] at hx
    by_cases ha : p a
    · rw [if_pos ha] at hx
      exact ih hRp (List.Pairwise.of_cons hpw) x hx
    · rw [if_neg ha] at hx
      rcases List.mem_cons.mp hx with rfl | hx
      · exact Bool.eq_false_iff.mpr ha
      · rcases List.pairwise_cons.mp hpw with ⟨hfst, _⟩
        rw [Bool.eq_false_iff]
        intro hpx
        exact ha (hRp a x (hfst x hx) hpx)

theorem filter_eq_nil_of_sorted {α : Type} {R : α → α → Prop} {p : α → Bool}
    {a : α} {l : List α} (hRp : ∀ a b, R a b → p b = true → p a = true)
    (hpw : (a :: l).Pairwise R) (ha : p a = false) : l.filter p = [] := by
  rw [List.filter_eq_nil_iff]
  intro x hx hpx
  rcases List.pairwise_cons.mp hpw with ⟨hfst, _⟩
  rw [hRp a x (hfst x hx) hpx] at ha
  simp at ha

theorem sorted_takeWhile_eq_filter {α : Type} {R : α → α → Prop} {p : α → Bool} :
    ∀ {l : List α}, (∀ a b, R a b → p b = true → p a = true) → l.Pairwise R →
      l.takeWhile p = l.filter p := by
  intro l
  induction l with
  | nil => intro _ _; rfl
  | cons a l ih =>
    intro hRp hpw
    rw [List.takeWhile_cons, List.filter_cons]
    by_cases ha : p a
    · simp only [ha, if_true]
      rw [ih hRp (List.Pairwise.of_cons hpw)]
    · simp only [ha, Bool.false_eq_true, if_false]
      exact (filter_eq_nil_of_sorted hRp hpw (Bool.eq_false_iff.mpr ha)).symm

theorem sorted_dropWhile_eq_filter {α : Type} {R : α → α → Prop} {p : α → Bool} :
    ∀ {l : List α}, (∀ a b, R a b → p b = true → p a = true) → l.Pairwise R →
      l.dropWhile p = l.filter (fun x => ! p x) := by
  intro l
  induction l with
  | nil => intro _ _; rfl
  | cons a l ih =>
    intro hRp hpw
    rw [List.dropWhile_cons, List.filter_cons]
    by_cases ha : p a
    · simp only [ha, if_true, Bool.not_true, Bool.false_eq_true, if_false]
      exact ih hRp (List.Pairwise.of_cons hpw)
    · simp only [ha, Bool.false_eq_true, if_false, Bool.not_false, if_true]
      congr 1
      symm
      rw [List.filter_eq_self]
      intro x hx
      rw [Bool.not_eq_true']
      by_contra hpx
      rw [Bool.not_eq_false] at hpx
      rcases List.pairwise_cons.mp hpw with ⟨hfst, _⟩
      exact ha (hRp a x (hfst x hx) hpx)

theorem length_lt_of_nodup_bounds {l : List Nat} {m : Nat} (hn : l.Nodup)
    (hb : ∀ x ∈ l, 0 < x ∧ x < m) (hm : 0 < m) : l.length < m := by
  have hsub : l.toFinset ⊆ Finset.Ioo 0 m := by
    intro x hx
    rw [List.mem_toFinset] at hx
    rw [Finset.mem_Ioo]
    exact hb x hx
  have hcard := Finset.card_le_card hsub
  rw [List.toFinset_card_of_nodup hn, Nat.card_Ioo] at hcard
  omega

theorem getLastD_mem_cons {α : Type} (l : List α) (c : α) : l.getLastD c ∈ c :: l := by
  rcases getLastD_cases l c with h | h
  · rw [h]; exact List.mem_cons_self c l
  · exact List.mem_cons_of_mem c h

/-! ## Chain lemmas -/

theorem chain_congr {f g : Nat → Option Nat} :
    ∀ {L : List Nat} {a : Nat}, (∀ x ∈ a :: L, f x = g x) → IsChain f a L →
      IsChain g a L := by
  intro L
  induction L with
  | nil =>
    intro a hfg hch
    simp only [IsChain] at hch ⊢
    rw [← hfg a (by simp)]
    exact hch
  | cons b l ih =>
    intro a hfg hch
    simp only [IsChain] at hch ⊢
    refine ⟨?_, ?_⟩
    · rw [← hfg a (by simp)]
      exact hch.1
    · exact ih (fun x hx => hfg x (List.mem_cons_of_mem a hx)) hch.2

theorem chain_uniq {f : Nat → Option Nat} :
    ∀ {L₁ : List Nat} {a : Nat} {L₂ : List Nat}, IsChain f a L₁ → IsChain f a L₂ →
      L₁ = L₂ := by
  intro L₁
  induction L₁ with
  | nil =>
    intro a L₂ h1 h2
    cases L₂ with
    | nil => rfl
    | cons c l₂ =>
      simp only [IsChain] at h1 h2
      rw [h1] at h2
      exact absurd h2.1 (by simp)
  | cons b l ih =>
    intro a L₂ h1 h2
    cases L₂ with
    | nil =>
      simp only [IsChain] at h1 h2
      rw [h2] at h1
      exact absurd h1.1 (by simp)
    | cons c l₂ =>
      simp only [IsChain] at h1 h2
      have hbc : b = c := Option.some.inj (h1.1.symm.trans h2.1)
      subst hbc
      rw [ih h1.2 h2.2]

theorem chain_mid {f : Nat → Option Nat} :
    ∀ (l₁ : List Nat) {a : Nat} {l₂ : List Nat},
      IsChain f a (l₁ ++ l₂) → IsChain f (l₁.getLastD a) l₂ := by
  intro l₁
  induction l₁ with
  | nil => intro a l₂ h; exact h
  | cons b l ih =>
    intro a l₂ h
    simp only [List.cons_append, IsChain] at h
    rw [List.getLastD_cons]
    exact ih h.2

theorem chain_link_split {f : Nat → Option Nat} (p : Nat → Bool) {L : List Nat}
    (hch : IsChain f 0 L) :
    f ((L.takeWhile p).getLastD 0) = (L.dropWhile p).head? := by
  have h := chain_mid (L.takeWhile p)
    (by rw [List.takeWhile_append_dropWhile]; exact hch)
  cases hdw : L.dropWhile p with
  | nil =>
    rw [hdw] at h
    exact h
  | cons b l =>
    rw [hdw] at h
    simp only [IsChain] at h
    exact h.1

theorem chain_insert {f f' : Nat → Option Nat} {n : Nat} :
    ∀ (l₁ : List Nat) {a : Nat} (l₂ : List Nat),
      IsChain f a (l₁ ++ l₂) →
      (a :: (l₁ ++ l₂)).Nodup →
      n ∉ a :: (l₁ ++ l₂) →
      f' (l₁.getLastD a) = some n →
      f' n = f (l₁.getLastD a) →
      (∀ x ∈ a :: (l₁ ++ l₂), x ≠ l₁.getLastD a → f' x = f x) →
      IsChain f' a (l₁ ++ n :: l₂) := by
  intro l₁
  induction l₁ with
  | nil =>
    intro a l₂ hch hnd hn hu hn' hag
    simp only [List.nil_append] at hch hnd hn hag ⊢
    simp only [List.getLastD] at hu hn'
    simp only [IsChain]
    refine ⟨hu, ?_⟩
    cases l₂ with
    | nil =>
      simp only [IsChain] at hch ⊢
      rw [hn']
      exact hch
    | cons b l₂' =>
      simp only [IsChain] at hch ⊢
      refine ⟨hn'.trans hch.1, ?_⟩
      refine chain_congr (fun x hx => ?_) hch.2
      have hxl : x ∈ b :: l₂' := hx
      have hxa : x ≠ a := by
        intro hxa
        rw [hxa] at hxl
        exact (List.nodup_cons.mp hnd).1 hxl
      exact (hag x (List.mem_cons_of_mem a hxl) hxa).symm
  | cons c l ih =>
    intro a l₂ hch hnd hn hu hn' hag
    simp only [List.cons_append, IsChain] at hch ⊢
    have hlast : (c :: l).getLastD a = l.getLastD c := List.getLastD_cons a c l
    refine ⟨?_, ?_⟩
    · have ha_ne : a ≠ (c :: l).getLastD a := by
        intro haeq
        have hmem : (c :: l).getLastD a ∈ c :: l := by
          rw [hlast]
          exact getLastD_mem_cons l c
        rw [← haeq] at hmem
        exact (List.nodup_cons.mp hnd).1
          (List.mem_append.mpr (Or.inl hmem))
      rw [hag a (by simp) ha_ne]
      exact hch.1
    · refine ih _ hch.2 (List.nodup_cons.mp hnd).2 ?_ ?_ ?_ ?_
      · intro hmem
        exact hn (List.mem_cons_of_mem a hmem)
      · rw [← hlast]; exact hu
      · rw [← hlast]; exact hn'
      · intro x hx hxne
        refine hag x ?_ ?_
        · rcases List.mem_cons.mp hx with rfl | hx'
          · exact List.mem_cons_of_mem a (by simp)
          · rcases List.mem_append.mp hx' with hx'' | hx''
            · exact List.mem_cons_of_mem a
                (List.mem_append.mpr (Or.inl (List.mem_cons_of_mem c hx'')))
            · exact List.mem_cons_of_mem a (List.mem_append.mpr (Or.inr hx''))
        · rw [hlast]; exact hxne

theorem chain_remove {f f' : Nat → Option Nat} {t : Nat} :
    ∀ (l₁ : List Nat) {a : Nat} (l₂ : List Nat),
      IsChain f a (l₁ ++ t :: l₂) →
      (a :: (l₁ ++ t :: l₂)).Nodup →
      f' (l₁.getLastD a) = f t →
      (∀ x ∈ a :: (l₁ ++ l₂), x ≠ l₁.getLastD a → f' x = f x) →
      IsChain f' a (l₁ ++ l₂) := by
  intro l₁
  induction l₁ with
  | nil =>
    intro a l₂ hch hnd hu hag
    simp only [List.nil_append] at hch hnd hag ⊢
    simp only [List.getLastD] at hu
    simp only [IsChain] at hch
    cases l₂ with
    | nil =>
      simp only [IsChain] at hch ⊢
      rw [hu]
      exact hch.2
    | cons b l₂' =>
      simp only [IsChain] at hch ⊢
      refine ⟨hu.trans hch.2.1, ?_⟩
      refine chain_congr (fun x hx => ?_) hch.2.2
      have hxa : x ≠ a := by
        intro hxa
        rw [hxa] at hx
        exact (List.nodup_cons.mp hnd).1 (List.mem_cons_of_mem t hx)
      exact (hag x (List.mem_cons_of_mem a hx) hxa).symm
  | cons c l ih =>
    intro a l₂ hch hnd hu hag
    simp only [List.cons_append, IsChain] at hch ⊢
    have hlast : (c :: l).getLastD a = l.getLastD c := List.getLastD_cons a c l
    refine ⟨?_, ?_⟩
    · have ha_ne : a ≠ (c :: l).getLastD a := by
        intro haeq
        have hmem : (c :: l).getLastD a ∈ c :: l := by
          rw [hlast]
          exact getLastD_mem_cons l c
        rw [← haeq] at hmem
        exact (List.nodup_cons.mp hnd).1
          (List.mem_append.mpr (Or.inl hmem))
      rw [hag a (by simp) ha_ne]
      exact hch.1
    · refine ih _ hch.2 (List.nodup_cons.mp hnd).2 ?_ ?_
      · rw [← hlast]; exact hu
      · intro x hx hxne
        refine hag x ?_ ?_
        · rcases List.mem_cons.mp hx with rfl | hx'
          · exact List.mem_cons_of_mem a (by simp)
          · rcases List.mem_append.mp hx' with hx'' | hx''
            · exact List.mem_cons_of_mem a
                (List.mem_append.mpr (Or.inl (List.mem_cons_of_mem c hx'')))
            · exact List.mem_cons_of_mem a (List.mem_append.mpr (Or.inr hx''))
        · rw [hlast]; exact hxne

/-! ## Heap mutation characterizations -/

theorem link_setNext (h : Heap) (idx lvl : Nat) (v : Option Nat) (x j : Nat) :
    (h.setNext idx lvl v).link x j =
      if x = idx ∧ j = lvl then v else h.link x j := by
  simp only [Heap.link, Heap.setNext]
  by_cases hx : x = idx <;> by_cases hj : j = lvl <;> simp [hx, hj]

theorem entry_setNext (h : Heap) (idx lvl : Nat) (v : Option Nat) (x : Nat) :
    (h.setNext idx lvl v).entry x = h.entry x := by
  simp only [Heap.entry, Heap.setNext]
  by_cases hx : x = idx <;> simp [hx]

theorem size_setNext (h : Heap) (idx lvl : Nat) (v : Option Nat) :
    (h.setNext idx lvl v).size = h.size := rfl

theorem link_push (h : Heap) (nd : Node) (x j : Nat) :
    (h.push nd).link x j = if x = h.size then nd.next j else h.link x j := by
  simp only [Heap.link, Heap.push]
  by_cases hx : x = h.size <;> simp [hx]

theorem entry_push (h : Heap) (nd : Node) (x : Nat) :
    (h.push nd).entry x = if x = h.size then nd.e else h.entry x := by
  simp only [Heap.entry, Heap.push]
  by_cases hx : x = h.size <;> simp [hx]

theorem size_push (h : Heap) (nd : Node) : (h.push nd).size = h.size + 1 := rfl

theorem splice_entry (h : Heap) (nIdx : Nat) (upd : Nat → Option Nat) :
    ∀ cnt x, (spliceLoop h nIdx upd cnt).entry x = h.entry x := by
  intro cnt
  induction cnt with
  | zero => intro x; rfl
  | succ i ih =>
    intro x
    simp only [spliceLoop]
    rw [entry_setNext, entry_setNext]
    exact ih x

theorem splice_size (h : Heap) (nIdx : Nat) (upd : Nat → Option Nat) :
    ∀ cnt, (spliceLoop h nIdx upd cnt).size = h.size := by
  intro cnt
  induction cnt with
  | zero => rfl
  | succ i ih =>
    simp only [spliceLoop]
    rw [size_setNext, size_setNext]
    exact ih

theorem splice_link_ge (h : Heap) (nIdx : Nat) (upd : Nat → Option Nat) :
    ∀ cnt j, cnt ≤ j → ∀ x, (spliceLoop h nIdx upd cnt).link x j = h.link x j := by
  intro cnt
  induction cnt with
  | zero => intro j _ x; rfl
  | succ i ih =>
    intro j hj x
    simp only [spliceLoop]
    rw [link_setNext, link_setNext]
    have hne : ¬ j = i := by omega
    simp only [hne, and_false, if_false]
    exact ih j (by omega) x

theorem splice_link_lt (h : Heap) (nIdx : Nat) (upd : Nat → Option Nat) :
    ∀ cnt j, j < cnt → ∀ x,
      (spliceLoop h nIdx upd cnt).link x j =
        if x = (upd j).getD 0 then some nIdx
        else if x = nIdx then h.link ((upd j).getD 0) j
        else h.link x j := by
  intro cnt
  induction cnt with
  | zero => intro j hj; omega
  | succ i ih =>
    intro j hj x
    simp only [spliceLoop]
    rw [link_setNext, link_setNext]
    by_cases hji : j = i
    · subst hji
      have ht : (spliceLoop h nIdx upd j).link ((upd j).getD 0) j =
          h.link ((upd j).getD 0) j := splice_link_ge h nIdx upd j j (le_refl j) _
      by_cases hx : x = (upd j).getD 0
      · simp [hx]
      · simp only [hx, false_and, if_false]
        by_cases hxn : x = nIdx
        · simp only [hxn, true_and, if_true, hx, if_false]
          exact ht
        · simp only [hxn, false_and, if_false, hx, if_false]
          exact splice_link_ge h nIdx upd j j (le_refl j) x
    · have hji' : j < i := by omega
      have hne1 : ¬ (x = (upd i).getD 0 ∧ j = i) := by intro hc; exact hji hc.2
      have hne2 : ¬ (x = nIdx ∧ j = i) := by intro hc; exact hji hc.2
      rw [if_neg hne1, if_neg hne2]
      exact ih j hji' x

theorem unlink_entry (h : Heap) (target : Nat) (upd : Nat → Option Nat) :
    ∀ cnt x, (unlinkLoop h target upd cnt).entry x = h.entry x := by
  intro cnt
  induction cnt with
  | zero => intro x; rfl
  | succ i ih =>
    intro x
    simp only [unlinkLoop]
    split
    · rw [entry_setNext]
      exact ih x
    · exact ih x

theorem unlink_size (h : Heap) (target : Nat) (upd : Nat → Option Nat) :
    ∀ cnt, (unlinkLoop h target upd cnt).size = h.size := by
  intro cnt
  induction cnt with
  | zero => rfl
  | succ i ih =>
    simp only [unlinkLoop]
    split
    · rw [size_setNext]
      exact ih
    · exact ih

theorem unlink_link_ge (h : Heap) (target : Nat) (upd : Nat → Option Nat) :
    ∀ cnt j, cnt ≤ j → ∀ x, (unlinkLoop h target upd cnt).link x j = h.link x j := by
  intro cnt
  induction cnt with
  | zero => intro j _ x; rfl
  | succ i ih =>
    intro j hj x
    simp only [unlinkLoop]
    split
    · rw [link_setNext]
      have hne : ¬ (x = (upd i).getD 0 ∧ j = i) := by
        intro hc
        omega
      rw [if_neg hne]
      exact ih j (by omega) x
    · exact ih j (by omega) x

theorem unlink_link_lt (h : Heap) (target : Nat) (upd : Nat → Option Nat) :
    ∀ cnt j, j < cnt → ∀ x,
      (unlinkLoop h target upd cnt).link x j =
        if h.link ((upd j).getD 0) j = some target ∧ x = (upd j).getD 0 then
          h.link target j
        else h.link x j := by
  intro cnt
  induction cnt with
  | zero => intro j hj; omega
  | succ i ih =>
    intro j hj x
    simp only [unlinkLoop]
    by_cases hji : j = i
    · subst hji
      have hu : (unlinkLoop h target upd j).link ((upd j).getD 0) j =
          h.link ((upd j).getD 0) j := unlink_link_ge h target upd j j (le_refl j) _
      have htj : (unlinkLoop h target upd j).link target j = h.link target j :=
        unlink_link_ge h target upd j j (le_refl j) _
      split
    -- condition of the loop body
      · rename_i hcond
        rw [hu] at hcond
        rw [link_setNext]
        by_cases hx : x = (upd j).getD 0
        · simp only [hx, and_true, if_true]
          rw [if_pos hcond]
          exact htj
        · have hne : ¬ (x = (upd j).getD 0 ∧ j = j) := by
            intro hc
            exact hx hc.1
          rw [if_neg hne, if_neg (by intro hc; exact hx hc.2)]
          exact unlink_link_ge h target upd j j (le_refl j) x
      · rename_i hcond
        rw [hu] at hcond
        rw [if_neg (by intro hc; exact hcond hc.1)]
        exact unlink_link_ge h target upd j j (le_refl j) x
    · have hji' : j < i := by omega
      split
      · rw [link_setNext]
        have hne : ¬ (x = (upd i).getD 0 ∧ j = i) := by
          intro hc
          exact hji hc.2
        rw [if_neg hne]
        exact ih j hji' x
      · exact ih j hji' x

theorem shrink_spec (h : Heap) :
    ∀ l, 1 ≤ l →
      1 ≤ shrinkLvl h l ∧ shrinkLvl h l ≤ l ∧
      (∀ i, shrinkLvl h l ≤ i → i < l → h.link 0 i = none) ∧
      (shrinkLvl h l = 1 ∨ h.link 0 (shrinkLvl h l - 1) ≠ none) := by
  intro l
  induction l with
  | zero => intro h1; omega
  | succ m ih =>
    intro _
    cases m with
    | zero =>
      refine ⟨le_refl 1, le_refl 1, ?_, Or.inl rfl⟩
      intro i h1 h2
      have hs : shrinkLvl h 1 = 1 := rfl
      rw [hs] at h1
      omega
    | succ k =>
      show 1 ≤ shrinkLvl h (k + 2) ∧ _
      simp only [shrinkLvl]
      by_cases hl : h.link 0 (k + 1) = none
      · rw [if_pos hl]
        rcases ih (by omega) with ⟨ih1, ih2, ih3, ih4⟩
        refine ⟨ih1, by omega, ?_, ih4⟩
        intro i hi1 hi2
        by_cases hik : i = k + 1
        · rw [hik]; exact hl
        · exact ih3 i hi1 (by omega)
      · rw [if_neg hl]
        refine ⟨by omega, le_refl _, ?_, Or.inr ?_⟩
        · intro i h1 h2
          omega
        · simpa using hl

/-! ## Search characterization -/

theorem walkLevel_eq {h : Heap} {e : Entry} {i : Nat} :
    ∀ {L : List Nat} {a fuel : Nat}, IsChain (lk h i) a L → L.length ≤ fuel →
      walkLevel h e i a fuel = (L.takeWhile (pBefore h e)).getLastD a := by
  intro L
  induction L with
  | nil =>
    intro a fuel hch _
    simp only [IsChain, lk] at hch
    cases fuel with
    | zero => rfl
    | succ fu => simp [walkLevel, hch]
  | cons b l ih =>
    intro a fuel hch hfuel
    simp only [IsChain, lk] at hch
    cases fuel with
    | zero => simp at hfuel
    | succ fu =>
      simp only [walkLevel, hch.1]
      rw [List.takeWhile_cons]
      by_cases hb : less (h.entry b) e = true
      · have hpb : pBefore h e b = true := hb
        simp only [hb, if_true, hpb]
        rw [List.getLastD_cons]
        exact ih hch.2 (by simp at hfuel; omega)
      · have hpb : pBefore h e b = false := Bool.eq_false_iff.mpr hb
        simp only [hb, if_false, hpb, Bool.false_eq_true]
        rfl

theorem predIdx_mem (h : Heap) (e : Entry) (L : List Nat) :
    predIdx h e L ∈ 0 :: L ∧
      (predIdx h e L = 0 ∨ pBefore h e (predIdx h e L) = true) := by
  unfold predIdx
  rcases getLastD_cases (L.takeWhile (pBefore h e)) 0 with hd | hm
  · rw [hd]
    exact ⟨by simp, Or.inl rfl⟩
  · constructor
    · exact List.mem_cons_of_mem 0 ((List.takeWhile_sublist _).mem hm)
    · exact Or.inr (List.mem_takeWhile_imp hm)

theorem walkLevel_from_mid {h : Heap} {e : Entry} {i : Nat} {L : List Nat}
    (hch : IsChain (lk h i) 0 L) (hsort : L.Pairwise (pLess h))
    (hnd : (0 :: L).Nodup) {cur : Nat} (hcur : cur ∈ 0 :: L)
    (hp : cur = 0 ∨ pBefore h e cur = true) {fuel : Nat}
    (hfuel : L.length ≤ fuel) :
    walkLevel h e i cur fuel = predIdx h e L := by
  rcases List.mem_cons.mp hcur with rfl | hcur'
  · exact walkLevel_eq hch hfuel
  · have hne0 : cur ≠ 0 := by
      intro hc
      rw [hc] at hcur'
      exact (List.nodup_cons.mp hnd).1 hcur'
    have hpcur : pBefore h e cur = true := by
      rcases hp with hc | hc
      · exact absurd hc hne0
      · exact hc
    rcases List.append_of_mem hcur' with ⟨pre, suf, rfl⟩
    have hch_mid : IsChain (lk h i) cur suf := by
      have harg : IsChain (lk h i) 0 ((pre ++ [cur]) ++ suf) := by
        rw [List.append_assoc, List.singleton_append]
        exact hch
      have := chain_mid (pre ++ [cur]) harg
      rwa [getLastD_append_cons pre cur [] 0] at this
    have hlen : suf.length ≤ fuel := by
      rw [List.length_append, List.length_cons] at hfuel
      omega
    rw [walkLevel_eq hch_mid hlen]
    have hpre : ∀ x ∈ pre, pBefore h e x = true := by
      intro x hx
      rcases List.pairwise_append.mp hsort with ⟨_, _, hcross⟩
      have hxc : pLess h x cur := hcross x hx cur (by simp)
      exact less_trans hxc hpcur
    unfold predIdx
    rw [takeWhile_append_all hpre, List.takeWhile_cons, hpcur, if_pos rfl,
      getLastD_append_cons]

theorem searchLoop_spec (h : Heap) (e : Entry) (C : Nat → List Nat)
    (hch : ∀ i, IsChain (lk h i) 0 (C i))
    (hsub : ∀ i, List.Sublist (C (i + 1)) (C i))
    (hsort : (C 0).Pairwise (pLess h))
    (hbnd : ∀ a ∈ C 0, 0 < a ∧ a < h.size)
    (hsz : 0 < h.size) :
    ∀ cnt cur upd₀, cur ∈ 0 :: C cnt → (cur = 0 ∨ pBefore h e cur = true) →
      ∀ j, searchLoop h e cur upd₀ cnt j =
        if j < cnt then some (predIdx h e (C j)) else upd₀ j := by
  have hsubl : ∀ i, List.Sublist (C i) (C 0) := by
    intro i
    induction i with
    | zero => exact List.Sublist.refl _
    | succ k ih => exact (hsub k).trans ih
  have hnd0 : (C 0).Nodup := by
    refine List.Pairwise.imp ?_ hsort
    intro a b hab haeq
    rw [haeq] at hab
    have := less_irrefl (h.entry b)
    rw [pLess, this] at hab
    exact Bool.false_ne_true hab
  have hndC : ∀ i, (0 :: C i).Nodup := by
    intro i
    rw [List.nodup_cons]
    refine ⟨?_, hnd0.sublist (hsubl i)⟩
    intro hc
    have := (hbnd 0 ((hsubl i).subset hc)).1
    omega
  have hsortC : ∀ i, (C i).Pairwise (pLess h) := fun i => hsort.sublist (hsubl i)
  have hlenC : ∀ i, (C i).length ≤ h.size := by
    intro i
    have := length_lt_of_nodup_bounds (hnd0.sublist (hsubl i))
      (fun x hx => hbnd x ((hsubl i).subset hx)) hsz
    omega
  intro cnt
  induction cnt with
  | zero =>
    intro cur upd₀ _ _ j
    simp [searchLoop]
  | succ k ih =>
    intro cur upd₀ hcur hp j
    have hcur' : cur ∈ 0 :: C k := by
      rcases List.mem_cons.mp hcur with rfl | hm
      · exact List.mem_cons_self _ _
      · exact List.mem_cons_of_mem 0 ((hsub k).subset hm)
    have hwalk : walkLevel h e k cur h.size = predIdx h e (C k) :=
      walkLevel_from_mid (hch k) (hsortC k) (hndC k) hcur' hp (hlenC k)
    show searchLoop h e (walkLevel h e k cur h.size)
      (fun j' => if j' = k then some (walkLevel h e k cur h.size) else upd₀ j') k j = _
    rw [hwalk]
    rw [ih (predIdx h e (C k)) _ (predIdx_mem h e (C k)).1 (predIdx_mem h e (C k)).2 j]
    by_cases hjk : j < k
    · rw [if_pos hjk, if_pos (by omega)]
    · by_cases hje : j = k
      · subst hje
        rw [if_neg (lt_irrefl j), if_pos rfl, if_pos (by omega)]
      · rw [if_neg hjk, if_neg hje, if_neg (by omega)]

/-! ## Consequences of well-formedness, user-index lemmas, level drawing -/

theorem ChainsOK.subl {s : SkipList} {C : Nat → List Nat} (hC : ChainsOK s C) :
    ∀ i, List.Sublist (C i) (C 0) := by
  intro i
  induction i with
  | zero => exact List.Sublist.refl _
  | succ k ih => exact (hC.sub k).trans ih

theorem ChainsOK.nodup0 {s : SkipList} {C : Nat → List Nat} (hC : ChainsOK s C) :
    (C 0).Nodup := by
  refine List.Pairwise.imp ?_ hC.sorted
  intro a b hab haeq
  rw [haeq] at hab
  have := less_irrefl (s.heap.entry b)
  rw [pLess, this] at hab
  exact Bool.false_ne_true hab

theorem ChainsOK.boundsC {s : SkipList} {C : Nat → List Nat} (hC : ChainsOK s C) :
    ∀ i, ∀ a ∈ C i, 0 < a ∧ a < s.heap.size :=
  fun i a ha => hC.bounds a ((hC.subl i).subset ha)

theorem ChainsOK.nodupC {s : SkipList} {C : Nat → List Nat} (hC : ChainsOK s C) :
    ∀ i, (0 :: C i).Nodup := by
  intro i
  rw [List.nodup_cons]
  refine ⟨?_, hC.nodup0.sublist (hC.subl i)⟩
  intro hc
  have := (hC.boundsC i 0 hc).1
  omega

theorem ChainsOK.sortC {s : SkipList} {C : Nat → List Nat} (hC : ChainsOK s C) :
    ∀ i, (C i).Pairwise (pLess s.heap) := fun i => hC.sorted.sublist (hC.subl i)

theorem ChainsOK.lenC {s : SkipList} {C : Nat → List Nat} (hC : ChainsOK s C) :
    ∀ i, (C i).length ≤ s.heap.size := by
  intro i
  have := length_lt_of_nodup_bounds (hC.nodup0.sublist (hC.subl i))
    (hC.boundsC i) hC.size_pos
  omega

theorem ChainsOK.user_absent {s : SkipList} {C : Nat → List Nat} (hC : ChainsOK s C)
    {u : UserID} (habs : lookupUser s.byUser u = none) :
    ∀ a ∈ C 0, (s.heap.entry a).user ≠ u := by
  intro a ha heq
  have := hC.user_idx a ha
  rw [heq, habs] at this
  exact absurd this (by simp)

theorem ChainsOK.search {s : SkipList} {C : Nat → List Nat} (hC : ChainsOK s C)
    (e : Entry) :
    ∀ j, searchLoop s.heap e 0 (fun _ => none) s.lvl j =
      if j < s.lvl then some (predIdx s.heap e (C j)) else none :=
  searchLoop_spec s.heap e C hC.chain hC.sub hC.sorted hC.bounds hC.size_pos
    s.lvl 0 _ (by simp) (Or.inl rfl)

theorem ChainsOK.predIdx_top {s : SkipList} {C : Nat → List Nat} (hC : ChainsOK s C)
    (e : Entry) : ∀ j, s.lvl ≤ j → predIdx s.heap e (C j) = 0 := by
  intro j hj
  rw [predIdx, hC.top_empty j hj]
  rfl

theorem ChainsOK.predIdx_ne_size {s : SkipList} {C : Nat → List Nat}
    (hC : ChainsOK s C) (e : Entry) (j : Nat) :
    predIdx s.heap e (C j) ≠ s.heap.size := by
  rcases List.mem_cons.mp (predIdx_mem s.heap e (C j)).1 with h0 | hm
  · rw [h0]
    have := hC.size_pos
    omega
  · have := (hC.boundsC j _ hm).2
    omega

theorem lookup_insert_self (l : List (UserID × Nat)) (u : UserID) (v : Nat) :
    lookupUser (insertUser l u v) u = some v := by
  simp [insertUser, lookupUser]

theorem lookup_erase_self (l : List (UserID × Nat)) (u : UserID) :
    lookupUser (eraseUser l u) u = none := by
  induction l with
  | nil => rfl
  | cons p rest ih =>
    rcases p with ⟨pu, pv⟩
    by_cases hp : pu = u
    · have hd : (decide ¬ pu = u) = false := by simp [hp]
      rw [eraseUser, List.filter_cons, hd]
      simp only [Bool.false_eq_true, if_false]
      exact ih
    · have hd : (decide ¬ pu = u) = true := by simp [hp]
      rw [eraseUser, List.filter_cons, hd]
      simp only [if_true]
      rw [lookupUser, if_neg hp]
      exact ih

theorem lookup_erase_ne (l : List (UserID × Nat)) {u x : UserID} (h : x ≠ u) :
    lookupUser (eraseUser l u) x = lookupUser l x := by
  induction l with
  | nil => rfl
  | cons p rest ih =>
    rcases p with ⟨pu, pv⟩
    by_cases hp : pu = u
    · have hd : (decide ¬ pu = u) = false := by simp [hp]
      rw [eraseUser, List.filter_cons, hd]
      simp only [Bool.false_eq_true, if_false]
      show lookupUser (eraseUser rest u) x = lookupUser ((pu, pv) :: rest) x
      rw [ih, lookupUser, if_neg (by rw [hp]; exact fun hc => h hc.symm)]
    · have hd : (decide ¬ pu = u) = true := by simp [hp]
      rw [eraseUser, List.filter_cons, hd]
      simp only [if_true]
      rw [lookupUser, lookupUser]
      by_cases hpx : pu = x
      · rw [if_pos hpx, if_pos hpx]
      · rw [if_neg hpx, if_neg hpx]
        exact ih

theorem lookup_insert_ne (l : List (UserID × Nat)) {u x : UserID} (h : x ≠ u)
    (v : Nat) : lookupUser (insertUser l u v) x = lookupUser l x := by
  rw [insertUser, lookupUser, if_neg (fun hc => h hc.symm)]
  exact lookup_erase_ne l h

theorem streak_le (rng : Nat → Bool) : ∀ c pos, streak rng pos c ≤ c := by
  intro c
  induction c with
  | zero => intro pos; exact le_refl 0
  | succ k ih =>
    intro pos
    rw [streak]
    by_cases hr : rng pos
    · rw [if_pos hr]
      have := ih (pos + 1)
      omega
    · rw [if_neg hr]
      omega

theorem randomLevelAux_spec (rng : Nat → Bool) :
    ∀ c pos lvl, lvl + c = maxLevel →
      randomLevelAux rng pos lvl =
        (lvl + streak rng pos c, pos + min (streak rng pos c + 1) c) := by
  intro c
  induction c with
  | zero =>
    intro pos lvl hl
    rw [randomLevelAux]
    rw [dif_neg (by omega)]
    rw [streak]
    simp
  | succ k ih =>
    intro pos lvl hl
    rw [randomLevelAux]
    rw [dif_pos (by omega)]
    by_cases hr : rng pos = true
    · rw [if_pos hr]
      rw [ih (pos + 1) (lvl + 1) (by omega)]
      rw [streak, if_pos hr]
      have hsl := streak_le rng k (pos + 1)
      refine Prod.ext ?_ ?_ <;> simp <;> omega
    · rw [if_neg hr]
      have hs0 : streak rng pos (k + 1) = 0 := by
        rw [streak, if_neg (by intro hc; exact hr (by rw [hc]))]
      rw [hs0]
      refine Prod.ext ?_ ?_ <;> simp

theorem randomLevel_bounds (rng : Nat → Bool) (pos : Nat) :
    1 ≤ (randomLevelAux rng pos 1).1 ∧ (randomLevelAux rng pos 1).1 ≤ maxLevel := by
  rw [randomLevelAux_spec rng (maxLevel - 1) pos 1 (by rw [maxLevel])]
  have := streak_le rng (maxLevel - 1) pos
  constructor
  · simp
  · simp only []
    rw [maxLevel] at this ⊢
    omega

/-! ## Preservation of well-formedness by insertion -/

theorem insertFresh_def (s : SkipList) (e : Entry) :
    insertFresh s e =
      { heap := spliceLoop (s.heap.push { e := e, next := fun _ => none }) s.heap.size
          (if s.lvl < (randomLevelAux s.rng s.pos 1).1
            then growUpdate (searchLoop s.heap e 0 (fun _ => none) s.lvl) s.lvl
              (randomLevelAux s.rng s.pos 1).1
            else searchLoop s.heap e 0 (fun _ => none) s.lvl)
          (randomLevelAux s.rng s.pos 1).1
        lvl := if s.lvl < (randomLevelAux s.rng s.pos 1).1
          then (randomLevelAux s.rng s.pos 1).1 else s.lvl
        byUser := insertUser s.byUser e.user s.heap.size
        rng := s.rng
        pos := (randomLevelAux s.rng s.pos 1).2 } := rfl

theorem insertFresh_wf {s : SkipList} {C : Nat → List Nat} (hC : ChainsOK s C)
    {e : Entry} (habs : lookupUser s.byUser e.user = none) :
    ChainsOK (insertFresh s e) (fun i =>
      if i < (randomLevelAux s.rng s.pos 1).1
      then (C i).takeWhile (pBefore s.heap e) ++
        s.heap.size :: (C i).dropWhile (pBefore s.heap e)
      else C i) := by
  rw [insertFresh_def]
  have hnlb := randomLevel_bounds s.rng s.pos
  set nl := (randomLevelAux s.rng s.pos 1).1 with hnl
  set nIdx := s.heap.size with hnIdx
  set upd := searchLoop s.heap e 0 (fun _ => none) s.lvl with hupd_def
  set upd2 := if s.lvl < nl then growUpdate upd s.lvl nl else upd with hupd2_def
  set h1 := spliceLoop (s.heap.push { e := e, next := fun _ => none }) nIdx upd2 nl
    with hh1
  have hupd : ∀ j, upd j =
      if j < s.lvl then some (predIdx s.heap e (C j)) else none := by
    intro j
    rw [hupd_def]
    exact hC.search e j
  have hupd2V : ∀ j, (upd2 j).getD 0 = predIdx s.heap e (C j) := by
    intro j
    rw [hupd2_def]
    by_cases hg : s.lvl < nl
    · rw [if_pos hg, growUpdate]
      by_cases hj : s.lvl ≤ j ∧ j < nl
      · rw [if_pos hj, hC.predIdx_top e j hj.1]
        rfl
      · rw [if_neg hj, hupd j]
        by_cases hjl : j < s.lvl
        · rw [if_pos hjl]
          rfl
        · rw [if_neg hjl, hC.predIdx_top e j (by omega)]
          rfl
    · rw [if_neg hg, hupd j]
      by_cases hjl : j < s.lvl
      · rw [if_pos hjl]
        rfl
      · rw [if_neg hjl, hC.predIdx_top e j (by omega)]
        rfl
  have hpredne : ∀ j, predIdx s.heap e (C j) ≠ nIdx := fun j =>
    hC.predIdx_ne_size e j
  have hlink_lt : ∀ j, j < nl → ∀ x, h1.link x j =
      if x = predIdx s.heap e (C j) then some nIdx
      else if x = nIdx then s.heap.link (predIdx s.heap e (C j)) j
      else s.heap.link x j := by
    intro j hj x
    rw [hh1, splice_link_lt _ _ _ nl j hj x, hupd2V j]
    by_cases hx : x = predIdx s.heap e (C j)
    · rw [if_pos hx, if_pos hx]
    · rw [if_neg hx, if_neg hx]
      by_cases hxn : x = nIdx
      · rw [if_pos hxn, if_pos hxn, link_push, if_neg (hpredne j)]
      · rw [if_neg hxn, if_neg hxn, link_push, if_neg hxn]
  have hlink_ge : ∀ j, nl ≤ j → ∀ x, h1.link x j =
      if x = nIdx then none else s.heap.link x j := by
    intro j hj x
    rw [hh1, splice_link_ge _ _ _ nl j hj x, link_push]
  have hentry1 : ∀ x, h1.entry x = if x = nIdx then e else s.heap.entry x := by
    intro x
    rw [hh1, splice_entry, entry_push]
  have hsize1 : h1.size = s.heap.size + 1 := by
    rw [hh1, splice_size, size_push]
  have hRp : ∀ a b, pLess s.heap a b → pBefore s.heap e b = true →
      pBefore s.heap e a = true := fun a b hab hb => less_trans hab hb
  have hmemC' : ∀ i x, x ∈ (C i).takeWhile (pBefore s.heap e) ++
      nIdx :: (C i).dropWhile (pBefore s.heap e) → x = nIdx ∨ x ∈ C i := by
    intro i x hx
    rcases List.mem_append.mp hx with hx | hx
    · exact Or.inr ((List.takeWhile_sublist _).mem hx)
    · rcases List.mem_cons.mp hx with rfl | hx
      · exact Or.inl rfl
      · exact Or.inr ((List.dropWhile_sublist _).mem hx)
  have hxnotn : ∀ i x, x ∈ C i → x ≠ nIdx := by
    intro i x hx hc
    have := (hC.boundsC i x hx).2
    omega
  have husers : ∀ a ∈ C 0, (s.heap.entry a).user ≠ e.user := hC.user_absent habs
  have hsplit : ∀ i, (C i).takeWhile (pBefore s.heap e) ++
      (C i).dropWhile (pBefore s.heap e) = C i :=
    fun i => List.takeWhile_append_dropWhile (pBefore s.heap e) (C i)
  refine ⟨?_, ?_, ?_, ?_, ?_, ?_, ?_, ?_, ?_, ?_, ?_⟩
  -- chain
  · intro i
    show IsChain (lk h1 i) 0
      (if i < nl then (C i).takeWhile (pBefore s.heap e) ++
        nIdx :: (C i).dropWhile (pBefore s.heap e) else C i)
    by_cases hi : i < nl
    · rw [if_pos hi]
      refine chain_insert (f := lk s.heap i) ((C i).takeWhile (pBefore s.heap e))
        ((C i).dropWhile (pBefore s.heap e)) ?_ ?_ ?_ ?_ ?_ ?_
      · rw [hsplit i]
        exact hC.chain i
      · rw [hsplit i]
        exact hC.nodupC i
      · rw [hsplit i]
        intro hc
        rcases List.mem_cons.mp hc with h0 | hm
        · have := hC.size_pos
          omega
        · exact hxnotn i nIdx hm rfl
      · show h1.link (predIdx s.heap e (C i)) i = some nIdx
        rw [hlink_lt i hi, if_pos rfl]
      · show h1.link nIdx i = lk s.heap i (predIdx s.heap e (C i))
        rw [hlink_lt i hi, if_neg (fun hc => hpredne i hc.symm), if_pos rfl]
        rfl
      · intro x hx hxne
        replace hxne : x ≠ predIdx s.heap e (C i) := hxne
        show h1.link x i = lk s.heap i x
        rw [hsplit i] at hx
        rcases List.mem_cons.mp hx with rfl | hm
        · rw [hlink_lt i hi, if_neg hxne,
            if_neg (by intro hc; have := hC.size_pos; omega)]
          rfl
        · rw [hlink_lt i hi, if_neg hxne, if_neg (hxnotn i x hm)]
          rfl
    · rw [if_neg hi]
      refine chain_congr (fun x hx => ?_) (hC.chain i)
      show lk s.heap i x = h1.link x i
      rw [hlink_ge i (by omega) x]
      rcases List.mem_cons.mp hx with rfl | hm
      · rw [if_neg (by intro hc; have := hC.size_pos; omega)]
        rfl
      · rw [if_neg (hxnotn i x hm)]
        rfl
  -- sub
  · intro i
    show List.Sublist
      (if i + 1 < nl then (C (i + 1)).takeWhile (pBefore s.heap e) ++
        nIdx :: (C (i + 1)).dropWhile (pBefore s.heap e) else C (i + 1))
      (if i < nl then (C i).takeWhile (pBefore s.heap e) ++
        nIdx :: (C i).dropWhile (pBefore s.heap e) else C i)
    by_cases hi1 : i + 1 < nl
    · rw [if_pos hi1, if_pos (by omega)]
      rw [sorted_takeWhile_eq_filter hRp (hC.sortC (i + 1)),
        sorted_takeWhile_eq_filter hRp (hC.sortC i),
        sorted_dropWhile_eq_filter hRp (hC.sortC (i + 1)),
        sorted_dropWhile_eq_filter hRp (hC.sortC i)]
      exact List.Sublist.append ((hC.sub i).filter _)
        (List.Sublist.cons₂ nIdx ((hC.sub i).filter _))
    · rw [if_neg hi1]
      by_cases hi : i < nl
      · rw [if_pos hi]
        refine (hC.sub i).trans ?_
        nth_rewrite 1 [← hsplit i]
        exact List.Sublist.append (List.Sublist.refl _) (List.sublist_cons_self _ _)
      · rw [if_neg hi]
        exact hC.sub i
  -- sorted
  · show List.Pairwise (pLess h1)
      (if 0 < nl then (C 0).takeWhile (pBefore s.heap e) ++
        nIdx :: (C 0).dropWhile (pBefore s.heap e) else C 0)
    rw [if_pos (by omega)]
    have hpl : ∀ a b, a ≠ nIdx → b ≠ nIdx →
        (pLess h1 a b ↔ pLess s.heap a b) := by
      intro a b ha hb
      rw [pLess, pLess, hentry1, hentry1, if_neg ha, if_neg hb]
    rw [List.pairwise_append]
    refine ⟨?_, ?_, ?_⟩
    · refine List.Pairwise.imp_of_mem ?_
        (hC.sorted.sublist (List.takeWhile_sublist _))
      intro a b ha hb hab
      rw [hpl a b (hxnotn 0 a ((List.takeWhile_sublist _).mem ha))
        (hxnotn 0 b ((List.takeWhile_sublist _).mem hb))]
      exact hab
    · rw [List.pairwise_cons]
      refine ⟨?_, ?_⟩
      · intro y hy
        have hyC : y ∈ C 0 := (List.dropWhile_sublist _).mem hy
        have hyn : y ≠ nIdx := hxnotn 0 y hyC
        rw [pLess, hentry1, hentry1, if_pos rfl, if_neg hyn]
        have hnotp : pBefore s.heap e y = false :=
          pairwise_dropWhile_not hRp hC.sorted y hy
        have hne : e ≠ s.heap.entry y := by
          intro hc
          exact husers y hyC (by rw [← hc])
        rcases less_total hne with hlt | hlt
        · exact hlt
        · rw [pBefore] at hnotp
          rw [hnotp] at hlt
          exact absurd hlt Bool.false_ne_true
      · refine List.Pairwise.imp_of_mem ?_
          (hC.sorted.sublist (List.dropWhile_sublist _))
        intro a b ha hb hab
        rw [hpl a b (hxnotn 0 a ((List.dropWhile_sublist _).mem ha))
          (hxnotn 0 b ((List.dropWhile_sublist _).mem hb))]
        exact hab
    · intro x hx y hy
      have hxC : x ∈ C 0 := (List.takeWhile_sublist _).mem hx
      have hxn : x ≠ nIdx := hxnotn 0 x hxC
      rcases List.mem_cons.mp hy with rfl | hy'
      · rw [pLess, hentry1, hentry1, if_neg hxn, if_pos rfl]
        have hpx : pBefore s.heap e x = true := List.mem_takeWhile_imp hx
        exact hpx
      · have hyC : y ∈ C 0 := (List.dropWhile_sublist _).mem hy'
        rw [hpl x y hxn (hxnotn 0 y hyC)]
        rcases List.pairwise_append.mp
          (by rw [hsplit 0]; exact hC.sorted) with ⟨_, _, hcross⟩
        exact hcross x hx y hy'
  -- bounds
  · intro a ha
    replace ha : a ∈ (if 0 < nl then (C 0).takeWhile (pBefore s.heap e) ++
        nIdx :: (C 0).dropWhile (pBefore s.heap e) else C 0) := ha
    rw [if_pos (by omega)] at ha
    show 0 < a ∧ a < h1.size
    rw [hsize1]
    rcases hmemC' 0 a ha with rfl | hm
    · have := hC.size_pos
      omega
    · have := hC.bounds a hm
      omega
  -- user_idx
  · intro a ha
    replace ha : a ∈ (if 0 < nl then (C 0).takeWhile (pBefore s.heap e) ++
        nIdx :: (C 0).dropWhile (pBefore s.heap e) else C 0) := ha
    rw [if_pos (by omega)] at ha
    show lookupUser (insertUser s.byUser e.user nIdx) (h1.entry a).user = some a
    rcases hmemC' 0 a ha with rfl | hm
    · rw [hentry1, if_pos rfl]
      exact lookup_insert_self s.byUser e.user nIdx
    · rw [hentry1, if_neg (hxnotn 0 a hm)]
      rw [lookup_insert_ne s.byUser (husers a hm) nIdx]
      exact hC.user_idx a hm
  -- idx_user
  · intro u v hlk
    replace hlk : lookupUser (insertUser s.byUser e.user nIdx) u = some v := hlk
    show v ∈ (if 0 < nl then (C 0).takeWhile (pBefore s.heap e) ++
        nIdx :: (C 0).dropWhile (pBefore s.heap e) else C 0) ∧
      (h1.entry v).user = u
    rw [if_pos (by omega)]
    by_cases hu : u = e.user
    · subst hu
      rw [lookup_insert_self] at hlk
      have hv : v = nIdx := by
        injection hlk with hv
        exact hv.symm
      subst hv
      refine ⟨by simp, ?_⟩
      rw [hentry1, if_pos rfl]
    · rw [lookup_insert_ne s.byUser hu nIdx] at hlk
      rcases hC.idx_user u v hlk with ⟨hvC, hvu⟩
      refine ⟨?_, ?_⟩
      · rw [← hsplit 0] at hvC
        rcases List.mem_append.mp hvC with hv | hv
        · exact List.mem_append.mpr (Or.inl hv)
        · exact List.mem_append.mpr (Or.inr (List.mem_cons_of_mem nIdx hv))
      · rw [hentry1, if_neg (hxnotn 0 v hvC)]
        exact hvu
  -- lvl_lb
  · show 1 ≤ if s.lvl < nl then nl else s.lvl
    by_cases hg : s.lvl < nl
    · rw [if_pos hg]
      omega
    · rw [if_neg hg]
      exact hC.lvl_lb
  -- lvl_ub
  · show (if s.lvl < nl then nl else s.lvl) ≤ maxLevel
    by_cases hg : s.lvl < nl
    · rw [if_pos hg]
      exact hnlb.2
    · rw [if_neg hg]
      exact hC.lvl_ub
  -- top_empty
  · intro i hi
    replace hi : (if s.lvl < nl then nl else s.lvl) ≤ i := hi
    show (if i < nl then (C i).takeWhile (pBefore s.heap e) ++
        nIdx :: (C i).dropWhile (pBefore s.heap e) else C i) = []
    by_cases hg : s.lvl < nl
    · rw [if_pos hg] at hi
      rw [if_neg (by omega)]
      exact hC.top_empty i (by omega)
    · rw [if_neg hg] at hi
      rw [if_neg (by omega)]
      exact hC.top_empty i (by omega)
  -- top_content
  · show (if s.lvl < nl then nl else s.lvl) = 1 ∨
      (if (if s.lvl < nl then nl else s.lvl) - 1 < nl
        then (C ((if s.lvl < nl then nl else s.lvl) - 1)).takeWhile
            (pBefore s.heap e) ++
          nIdx :: (C ((if s.lvl < nl then nl else s.lvl) - 1)).dropWhile
            (pBefore s.heap e)
        else C ((if s.lvl < nl then nl else s.lvl) - 1)) ≠ []
    by_cases hg : s.lvl < nl
    · rw [if_pos hg]
      refine Or.inr ?_
      rw [if_pos (by omega)]
      simp
    · rw [if_neg hg]
      rcases hC.top_content with h1' | h1'
      · exact Or.inl h1'
      · refine Or.inr ?_
        by_cases hi : s.lvl - 1 < nl
        · rw [if_pos hi]
          simp
        · rw [if_neg hi]
          exact h1'
  -- size_pos
  · show 0 < h1.size
    rw [hsize1]
    omega

/-! ## Preservation of well-formedness by removal -/

theorem chain_nil_of_head_none {f : Nat → Option Nat} {L : List Nat}
    (hch : IsChain f 0 L) (h0 : f 0 = none) : L = [] := by
  cases L with
  | nil => rfl
  | cons b l =>
    simp only [IsChain] at hch
    rw [h0] at hch
    exact absurd hch.1 (by simp)

theorem chain_ne_nil_of_head_some {f : Nat → Option Nat} {L : List Nat}
    (hch : IsChain f 0 L) (h0 : f 0 ≠ none) : L ≠ [] := by
  cases L with
  | nil => exact absurd hch h0
  | cons b l => simp

theorem filter_eq_self_of_not_mem {l : List Nat} {v : Nat} (h : v ∉ l) :
    l.filter (fun x => x ≠ v) = l := by
  rw [List.filter_eq_self]
  intro a ha
  simp only [ne_eq, decide_not, Bool.not_eq_eq_eq_not, Bool.not_true,
    decide_eq_false_iff_not]
  intro hc
  rw [hc] at ha
  exact h ha

theorem filter_ne_of_nodup {pre suf : List Nat} {v : Nat}
    (hnd : (pre ++ v :: suf).Nodup) :
    (pre ++ v :: suf).filter (fun x => x ≠ v) = pre ++ suf := by
  have hdisj := List.disjoint_of_nodup_append hnd
  have hvpre : v ∉ pre := by
    intro hc
    exact hdisj hc (by simp)
  have hnd2 : (v :: suf).Nodup := (List.nodup_append.mp hnd).2.1
  have hvsuf : v ∉ suf := (List.nodup_cons.mp hnd2).1
  rw [List.filter_append, List.filter_cons]
  have hd : (decide (v ≠ v)) = false := by simp
  rw [hd]
  simp only [Bool.false_eq_true, if_false]
  rw [filter_eq_self_of_not_mem hvpre, filter_eq_self_of_not_mem hvsuf]

theorem sorted_split_at {h : Heap} {L : List Nat} {v : Nat}
    (hsort : L.Pairwise (pLess h)) (hv : v ∈ L) :
    ∃ pre suf, L = pre ++ v :: suf ∧
      L.takeWhile (pBefore h (h.entry v)) = pre ∧
      L.dropWhile (pBefore h (h.entry v)) = v :: suf := by
  obtain ⟨pre, suf, rfl⟩ := List.append_of_mem hv
  have hpre : ∀ x ∈ pre, pBefore h (h.entry v) x = true := by
    intro x hx
    rcases List.pairwise_append.mp hsort with ⟨_, _, hcross⟩
    exact hcross x hx v (by simp)
  have hpv : pBefore h (h.entry v) v = false := by
    rw [pBefore]
    exact less_irrefl _
  refine ⟨pre, suf, rfl, ?_, ?_⟩
  · rw [takeWhile_append_all hpre, List.takeWhile_cons, hpv]
    simp
  · rw [dropWhile_append_all hpre, List.dropWhile_cons, hpv]
    simp

theorem removeLocked_wf {s : SkipList} {C : Nat → List Nat} (hC : ChainsOK s C)
    {u : UserID} {v : Nat} (hlk : lookupUser s.byUser u = some v) :
    ChainsOK (removeLocked s u (s.heap.entry v))
      (fun i => (C i).filter (fun x => x ≠ v)) ∧
    (removeLocked s u (s.heap.entry v)).byUser = eraseUser s.byUser u ∧
    (∀ x, (removeLocked s u (s.heap.entry v)).heap.entry x = s.heap.entry x) ∧
    (removeLocked s u (s.heap.entry v)).heap.size = s.heap.size ∧
    (removeLocked s u (s.heap.entry v)).rng = s.rng ∧
    (removeLocked s u (s.heap.entry v)).pos = s.pos := by
  obtain ⟨hvC, hvu⟩ := hC.idx_user u v hlk
  set upd := searchLoop s.heap (s.heap.entry v) 0 (fun _ => none) s.lvl
    with hupd_def
  set h' := unlinkLoop s.heap v upd s.lvl with hh'
  have hupd : ∀ j, upd j =
      if j < s.lvl then some (predIdx s.heap (s.heap.entry v) (C j)) else none := by
    intro j
    rw [hupd_def]
    exact hC.search (s.heap.entry v) j
  obtain ⟨pre0, suf0, hC0, htw0, hdw0⟩ := sorted_split_at hC.sorted hvC
  have htarget : s.heap.link ((upd 0).getD 0) 0 = some v := by
    rw [hupd 0, if_pos (show 0 < s.lvl from hC.lvl_lb)]
    have hsplitL := chain_link_split (pBefore s.heap (s.heap.entry v)) (hC.chain 0)
    rw [hdw0] at hsplitL
    exact hsplitL
  have hred : removeLocked s u (s.heap.entry v) =
      { s with
        heap := h'
        lvl := shrinkLvl h' s.lvl
        byUser := eraseUser s.byUser u } := by
    simp only [removeLocked]
    rw [← hupd_def, htarget]
    show (if (s.heap.entry v).user ≠ u then s
      else { s with
        heap := unlinkLoop s.heap v upd s.lvl
        lvl := shrinkLvl (unlinkLoop s.heap v upd s.lvl) s.lvl
        byUser := eraseUser s.byUser u }) = _
    rw [if_neg (fun hc => hc hvu), ← hh']
  rw [hred]
  have hent : ∀ x, h'.entry x = s.heap.entry x := by
    intro x
    rw [hh']
    exact unlink_entry _ _ _ _ x
  have hsize : h'.size = s.heap.size := by
    rw [hh']
    exact unlink_size _ _ _ _
  have hlinkG : ∀ j, s.lvl ≤ j → ∀ x, h'.link x j = s.heap.link x j := by
    intro j hj x
    rw [hh']
    exact unlink_link_ge _ _ _ _ j hj x
  have hlinkL : ∀ j, j < s.lvl → ∀ x, h'.link x j =
      if s.heap.link (predIdx s.heap (s.heap.entry v) (C j)) j = some v ∧
          x = predIdx s.heap (s.heap.entry v) (C j) then
        s.heap.link v j
      else s.heap.link x j := by
    intro j hj x
    rw [hh', unlink_link_lt _ _ _ s.lvl j hj x]
    have hg : (upd j).getD 0 = predIdx s.heap (s.heap.entry v) (C j) := by
      rw [hupd j, if_pos hj]
      rfl
    rw [hg]
  have hchain' : ∀ i, IsChain (lk h' i) 0 ((C i).filter (fun x => x ≠ v)) := by
    intro i
    by_cases hi : i < s.lvl
    · by_cases hvCi : v ∈ C i
      · obtain ⟨pre_i, suf_i, hCi, htw_i, hdw_i⟩ :=
          sorted_split_at (hC.sortC i) hvCi
        have hpred_i : predIdx s.heap (s.heap.entry v) (C i) = pre_i.getLastD 0 := by
          rw [predIdx, htw_i]
        have hcond_i :
            s.heap.link (predIdx s.heap (s.heap.entry v) (C i)) i = some v := by
          have hsplitL := chain_link_split (pBefore s.heap (s.heap.entry v))
            (hC.chain i)
          rw [hdw_i] at hsplitL
          exact hsplitL
        have hfilter : (C i).filter (fun x => x ≠ v) = pre_i ++ suf_i := by
          rw [hCi]
          exact filter_ne_of_nodup (by rw [← hCi]; exact hC.nodup0.sublist (hC.subl i))
        rw [hfilter]
        refine chain_remove (f := lk s.heap i) (t := v) pre_i suf_i ?_ ?_ ?_ ?_
        · rw [← hCi]
          exact hC.chain i
        · rw [← hCi]
          exact hC.nodupC i
        · show h'.link (pre_i.getLastD 0) i = lk s.heap i v
          rw [hlinkL i hi, ← hpred_i, if_pos ⟨hcond_i, rfl⟩]
          rfl
        · intro x hx hxne
          show h'.link x i = lk s.heap i x
          rw [hlinkL i hi,
            if_neg (by intro hc; rw [hpred_i] at hc; exact hxne hc.2)]
          rfl
      · have hfilter : (C i).filter (fun x => x ≠ v) = C i :=
          filter_eq_self_of_not_mem hvCi
        rw [hfilter]
        refine chain_congr (fun x hx => ?_) (hC.chain i)
        show lk s.heap i x = h'.link x i
        rw [hlinkL i hi]
        have hcond_i :
            s.heap.link (predIdx s.heap (s.heap.entry v) (C i)) i ≠ some v := by
          have hsplitL : s.heap.link (predIdx s.heap (s.heap.entry v) (C i)) i =
              ((C i).dropWhile (pBefore s.heap (s.heap.entry v))).head? :=
            chain_link_split (pBefore s.heap (s.heap.entry v)) (hC.chain i)
          intro hc
          rw [hc] at hsplitL
          cases hdd : (C i).dropWhile (pBefore s.heap (s.heap.entry v)) with
          | nil =>
            rw [hdd] at hsplitL
            exact absurd hsplitL.symm (by simp)
          | cons b l =>
            rw [hdd] at hsplitL
            have hbv : v = b := by
              have h2 := hsplitL.symm
              simp only [List.head?] at h2
              injection h2 with h3
              exact h3.symm
            have : b ∈ C i := (List.dropWhile_sublist _).mem (by rw [hdd]; simp)
            rw [← hbv] at this
            exact hvCi this
        rw [if_neg (by intro hc; exact hcond_i hc.1)]
        rfl
    · have hCe : C i = [] := hC.top_empty i (by omega)
      rw [hCe]
      show IsChain (lk h' i) 0 []
      simp only [IsChain]
      show h'.link 0 i = none
      rw [hlinkG i (by omega)]
      have := hC.chain i
      rw [hCe] at this
      exact this
  have hshr := shrink_spec h' s.lvl hC.lvl_lb
  refine ⟨⟨?_, ?_, ?_, ?_, ?_, ?_, ?_, ?_, ?_, ?_, ?_⟩, rfl, hent, hsize, rfl, rfl⟩
  -- chain
  · exact hchain'
  -- sub
  · intro i
    exact (hC.sub i).filter _
  -- sorted
  · refine List.Pairwise.imp_of_mem ?_
      (hC.sorted.sublist (List.filter_sublist _))
    intro a b _ _ hab
    show pLess h' a b
    rw [pLess, hent, hent]
    exact hab
  -- bounds
  · intro a ha
    have haC : a ∈ C 0 := List.mem_of_mem_filter ha
    show 0 < a ∧ a < h'.size
    rw [hsize]
    exact hC.bounds a haC
  -- user_idx
  · intro a ha
    have haC : a ∈ C 0 := List.mem_of_mem_filter ha
    have hanv : a ≠ v := by
      have := (List.mem_filter.mp ha).2
      simpa using this
    have hau : (s.heap.entry a).user ≠ u := by
      intro hc
      have h1 := hC.user_idx a haC
      rw [hc, hlk] at h1
      exact hanv (by injection h1 with h1; exact h1.symm)
    show lookupUser (eraseUser s.byUser u) (h'.entry a).user = some a
    rw [hent a, lookup_erase_ne s.byUser hau]
    exact hC.user_idx a haC
  -- idx_user
  · intro u' w hlk'
    replace hlk' : lookupUser (eraseUser s.byUser u) u' = some w := hlk'
    have hu'u : u' ≠ u := by
      intro hc
      rw [hc, lookup_erase_self] at hlk'
      exact absurd hlk' (by simp)
    rw [lookup_erase_ne s.byUser hu'u] at hlk'
    rcases hC.idx_user u' w hlk' with ⟨hwC, hwu⟩
    have hwnv : w ≠ v := by
      intro hc
      rw [hc, hvu] at hwu
      exact hu'u hwu.symm
    refine ⟨?_, ?_⟩
    · exact List.mem_filter.mpr ⟨hwC, by simpa using hwnv⟩
    · show (h'.entry w).user = u'
      rw [hent w]
      exact hwu
  -- lvl_lb
  · exact hshr.1
  -- lvl_ub
  · exact hshr.2.1.trans hC.lvl_ub
  -- top_empty
  · intro i hi
    replace hi : shrinkLvl h' s.lvl ≤ i := hi
    by_cases his : s.lvl ≤ i
    · rw [hC.top_empty i his]
      rfl
    · have hnone : h'.link 0 i = none := hshr.2.2.1 i hi (by omega)
      exact chain_nil_of_head_none (hchain' i) hnone
  -- top_content
  · rcases hshr.2.2.2 with h1 | h1
    · exact Or.inl h1
    · refine Or.inr ?_
      exact chain_ne_nil_of_head_some (hchain' _) h1
  -- size_pos
  · show 0 < h'.size
    rw [hsize]
    exact hC.size_pos

/-! ## Well-formedness of every reachable state -/

theorem NewSkipList_wf (rng : Nat → Bool) :
    ChainsOK (NewSkipList rng) (fun _ => []) := by
  refine ⟨?_, ?_, ?_, ?_, ?_, ?_, ?_, ?_, ?_, ?_, ?_⟩
  · intro i
    show (NewSkipList rng).heap.link 0 i = none
    rfl
  · intro i
    exact List.Sublist.refl []
  · exact List.Pairwise.nil
  · intro a ha
    simp at ha
  · intro a ha
    simp at ha
  · intro u v h
    exact absurd h (by simp [NewSkipList, lookupUser])
  · exact le_refl 1
  · show (1 : Nat) ≤ maxLevel
    rw [maxLevel]
    omega
  · intro i _
    rfl
  · exact Or.inl rfl
  · exact Nat.one_pos

theorem Update_eq_absent {s : SkipList} {u : UserID} (sc : Int)
    (h : lookupUser s.byUser u = none) :
    Update s u sc = insertFresh s { user := u, score := sc } := by
  simp only [Update]
  rw [h]

theorem Update_eq_present {s : SkipList} {u : UserID} (sc : Int) {v : Nat}
    (h : lookupUser s.byUser u = some v) :
    Update s u sc =
      insertFresh (removeLocked s u (s.heap.entry v)) { user := u, score := sc } := by
  simp only [Update]
  rw [h]

theorem Remove_eq_absent {s : SkipList} {u : UserID}
    (h : lookupUser s.byUser u = none) : Remove s u = s := by
  simp only [Remove]
  rw [h]

theorem Remove_eq_present {s : SkipList} {u : UserID} {v : Nat}
    (h : lookupUser s.byUser u = some v) :
    Remove s u = removeLocked s u (s.heap.entry v) := by
  simp only [Remove]
  rw [h]

theorem Update_wf {s : SkipList} (hW : WF s) (u : UserID) (sc : Int) :
    WF (Update s u sc) := by
  obtain ⟨C, hC⟩ := hW
  cases hlkp : lookupUser s.byUser u with
  | none =>
    rw [Update_eq_absent sc hlkp]
    exact ⟨_, insertFresh_wf hC hlkp⟩
  | some v =>
    rw [Update_eq_present sc hlkp]
    obtain ⟨hC1, hby, _, _, _, _⟩ := removeLocked_wf hC hlkp
    have habs : lookupUser (removeLocked s u (s.heap.entry v)).byUser u = none := by
      rw [hby]
      exact lookup_erase_self s.byUser u
    exact ⟨_, insertFresh_wf hC1 habs⟩

theorem Remove_wf {s : SkipList} (hW : WF s) (u : UserID) : WF (Remove s u) := by
  obtain ⟨C, hC⟩ := hW
  cases hlkp : lookupUser s.byUser u with
  | none =>
    rw [Remove_eq_absent hlkp]
    exact ⟨C, hC⟩
  | some v =>
    rw [Remove_eq_present hlkp]
    exact ⟨_, (removeLocked_wf hC hlkp).1⟩

theorem applyOp_wf {s : SkipList} (hW : WF s) (op : Op) : WF (applyOp s op) := by
  cases op with
  | upd u sc => exact Update_wf hW u sc
  | rem u => exact Remove_wf hW u

theorem applyOps_wf_from {s : SkipList} (hW : WF s) :
    ∀ ops : List Op, WF (applyOps ops s) := by
  intro ops
  induction ops generalizing s with
  | nil => exact hW
  | cons op rest ih =>
    rw [applyOps, List.foldl_cons]
    exact ih (applyOp_wf hW op)

theorem applyOps_wf (ops : List Op) (rng : Nat → Bool) :
    WF (applyOps ops (NewSkipList rng)) :=
  applyOps_wf_from ⟨_, NewSkipList_wf rng⟩ ops

/-! ## Extraction of the observables -/

theorem chainAux_eq {h : Heap} :
    ∀ {L : List Nat} {a fuel : Nat}, IsChain (lk h 0) a L → L.length ≤ fuel →
      chainAux h (h.link a 0) fuel = L := by
  intro L
  induction L with
  | nil =>
    intro a fuel hch _
    simp only [IsChain, lk] at hch
    rw [hch]
    cases fuel <;> rfl
  | cons b l ih =>
    intro a fuel hch hfuel
    simp only [IsChain, lk] at hch
    rw [hch.1]
    cases fuel with
    | zero => simp at hfuel
    | succ fu =>
      rw [chainAux]
      rw [ih hch.2 (by simp at hfuel; omega)]

theorem chain0_eq {s : SkipList} {C : Nat → List Nat} (hC : ChainsOK s C) :
    chain0 s = C 0 := by
  rw [chain0]
  exact chainAux_eq (hC.chain 0) (hC.lenC 0)

theorem entries_eq {s : SkipList} {C : Nat → List Nat} (hC : ChainsOK s C) :
    entries s = (C 0).map s.heap.entry := by
  rw [entries, chain0_eq hC]

theorem topNAux_eq {h : Heap} {n : Int} :
    ∀ {L : List Nat} {a fuel : Nat} {acc : List Entry},
      IsChain (lk h 0) a L → L.length < fuel →
      topNAux h n (h.link a 0) fuel acc =
        acc ++ (L.map h.entry).take (n.toNat - acc.length) := by
  intro L
  induction L with
  | nil =>
    intro a fuel acc hch _
    simp only [IsChain, lk] at hch
    rw [hch]
    cases fuel <;> simp [topNAux]
  | cons b l ih =>
    intro a fuel acc hch hfuel
    simp only [IsChain, lk] at hch
    rw [hch.1]
    cases fuel with
    | zero => simp at hfuel
    | succ fu =>
      rw [topNAux]
      by_cases hlen : (acc.length : Int) < n
      · rw [if_pos hlen]
        rw [ih hch.2 (by simp at hfuel; omega)]
        have hk : n.toNat - acc.length = (n.toNat - (acc ++ [h.entry b]).length) + 1 := by
          simp only [List.length_append, List.length_cons, List.length_nil]
          omega
        rw [hk]
        simp only [List.map_cons, List.take_succ_cons, List.length_append,
          List.length_cons, List.length_nil]
        rw [List.append_assoc, List.singleton_append]
      · rw [if_neg hlen]
        have hk : n.toNat - acc.length = 0 := by omega
        rw [hk]
        simp

theorem topN_eq {s : SkipList} {C : Nat → List Nat} (hC : ChainsOK s C) (n : Int) :
    TopN s n = if n ≤ 0 then [] else (entries s).take n.toNat := by
  rw [TopN]
  by_cases hn : n ≤ 0
  · rw [if_pos hn, if_pos hn]
  · rw [if_neg hn, if_neg hn]
    have hlt : (C 0).length < s.heap.size :=
      length_lt_of_nodup_bounds hC.nodup0 hC.bounds hC.size_pos
    rw [topNAux_eq (hC.chain 0) hlt]
    rw [entries_eq hC]
    simp

/-! ## Observable behaviour of the operations -/

theorem insertFresh_entry (s : SkipList) (e : Entry) (x : Nat) :
    (insertFresh s e).heap.entry x =
      if x = s.heap.size then e else s.heap.entry x := by
  rw [insertFresh_def]
  show (spliceLoop _ _ _ _).entry x = _
  rw [splice_entry, entry_push]

theorem insertFresh_size (s : SkipList) (e : Entry) :
    (insertFresh s e).heap.size = s.heap.size + 1 := by
  rw [insertFresh_def]
  show (spliceLoop _ _ _ _).size = _
  rw [splice_size, size_push]

theorem insertFresh_byUser (s : SkipList) (e : Entry) :
    (insertFresh s e).byUser = insertUser s.byUser e.user s.heap.size := rfl

theorem scoreOf_insertFresh_self (s : SkipList) (e : Entry) :
    scoreOf (insertFresh s e) e.user = some e := by
  rw [scoreOf, insertFresh_byUser, lookup_insert_self]
  show some ((insertFresh s e).heap.entry s.heap.size) = some e
  rw [insertFresh_entry, if_pos rfl]

theorem scoreOf_update_self (s : SkipList) (u : UserID) (sc : Int) :
    scoreOf (Update s u sc) u = some { user := u, score := sc } := by
  cases hlkp : lookupUser s.byUser u with
  | none =>
    rw [Update_eq_absent sc hlkp]
    exact scoreOf_insertFresh_self s _
  | some v =>
    rw [Update_eq_present sc hlkp]
    exact scoreOf_insertFresh_self _ _

theorem Get_found {s : SkipList} {u : UserID} {e0 : Entry}
    (h : scoreOf s u = some e0) : Get s u = (e0, true) := by
  rw [scoreOf] at h
  cases hl : lookupUser s.byUser u with
  | none =>
    rw [hl] at h
    exact absurd h (by simp)
  | some idx =>
    rw [hl] at h
    simp only [Option.map] at h
    injection h with h
    simp only [Get, hl]
    rw [h]

theorem Get_notfound {s : SkipList} {u : UserID} (h : scoreOf s u = none) :
    Get s u = ({ user := "", score := 0 }, false) := by
  rw [scoreOf] at h
  cases hl : lookupUser s.byUser u with
  | none => simp only [Get, hl]
  | some idx =>
    rw [hl] at h
    exact absurd h (by simp)

theorem scoreOf_insertFresh_frame {s : SkipList} {C : Nat → List Nat}
    (hC : ChainsOK s C) (e : Entry) {w : UserID} (hw : w ≠ e.user) :
    scoreOf (insertFresh s e) w = scoreOf s w := by
  rw [scoreOf, scoreOf, insertFresh_byUser, lookup_insert_ne s.byUser hw]
  cases hlw : lookupUser s.byUser w with
  | none => rfl
  | some idx =>
    have hidx : idx < s.heap.size := (hC.bounds idx (hC.idx_user w idx hlw).1).2
    show some ((insertFresh s e).heap.entry idx) = some (s.heap.entry idx)
    rw [insertFresh_entry, if_neg (by omega)]

theorem scoreOf_removeLocked_frame {s : SkipList} {C : Nat → List Nat}
    (hC : ChainsOK s C) {u : UserID} {v : Nat}
    (hlk : lookupUser s.byUser u = some v) {w : UserID} (hw : w ≠ u) :
    scoreOf (removeLocked s u (s.heap.entry v)) w = scoreOf s w := by
  obtain ⟨_, hby, hent, _, _, _⟩ := removeLocked_wf hC hlk
  rw [scoreOf, scoreOf, hby, lookup_erase_ne s.byUser hw]
  cases hlw : lookupUser s.byUser w with
  | none => rfl
  | some idx =>
    show some ((removeLocked s u (s.heap.entry v)).heap.entry idx) =
      some (s.heap.entry idx)
    rw [hent idx]

theorem scoreOf_update_other {s : SkipList} (hW : WF s) {u w : UserID}
    (hw : w ≠ u) (sc : Int) : scoreOf (Update s u sc) w = scoreOf s w := by
  obtain ⟨C, hC⟩ := hW
  have hwu : w ≠ (({ user := u, score := sc } : Entry)).user := hw
  cases hlkp : lookupUser s.byUser u with
  | none =>
    rw [Update_eq_absent sc hlkp]
    exact scoreOf_insertFresh_frame hC _ hwu
  | some v =>
    rw [Update_eq_present sc hlkp]
    obtain ⟨hC1, _, _, _, _, _⟩ := removeLocked_wf hC hlkp
    rw [scoreOf_insertFresh_frame hC1 _ hwu]
    exact scoreOf_removeLocked_frame hC hlkp hw

theorem scoreOf_remove_self {s : SkipList} (hW : WF s) (u : UserID) :
    scoreOf (Remove s u) u = none := by
  obtain ⟨C, hC⟩ := hW
  cases hlkp : lookupUser s.byUser u with
  | none =>
    rw [Remove_eq_absent hlkp, scoreOf, hlkp]
    rfl
  | some v =>
    rw [Remove_eq_present hlkp]
    obtain ⟨_, hby, _, _, _, _⟩ := removeLocked_wf hC hlkp
    rw [scoreOf, hby, lookup_erase_self]
    rfl

theorem scoreOf_remove_other {s : SkipList} (hW : WF s) {u w : UserID}
    (hw : w ≠ u) : scoreOf (Remove s u) w = scoreOf s w := by
  obtain ⟨C, hC⟩ := hW
  cases hlkp : lookupUser s.byUser u with
  | none => rw [Remove_eq_absent hlkp]
  | some v =>
    rw [Remove_eq_present hlkp]
    exact scoreOf_removeLocked_frame hC hlkp hw

/-! ## The entry-list recurrence of the two mutations -/

theorem delUser_eq_self {s : SkipList} {C : Nat → List Nat} (hC : ChainsOK s C)
    {u : UserID} (habs : lookupUser s.byUser u = none) :
    delUser u (entries s) = entries s := by
  rw [delUser, List.filter_eq_self]
  intro a ha
  rw [entries_eq hC] at ha
  rcases List.mem_map.mp ha with ⟨x, hx, rfl⟩
  simpa using hC.user_absent habs x hx

theorem entries_insertFresh {s : SkipList} {C : Nat → List Nat}
    (hC : ChainsOK s C) {e : Entry}
    (habs : lookupUser s.byUser e.user = none) :
    entries (insertFresh s e) = insSorted e (entries s) := by
  have hC' := insertFresh_wf hC habs
  rw [entries_eq hC']
  have hnlb := randomLevel_bounds s.rng s.pos
  rw [if_pos (by omega)]
  rw [List.map_append, List.map_cons]
  have hmapcongr : ∀ l : List Nat, (∀ x ∈ l, x ∈ C 0) →
      l.map (insertFresh s e).heap.entry = l.map s.heap.entry := by
    intro l hl
    refine List.map_congr_left ?_
    intro x hx
    rw [insertFresh_entry, if_neg]
    intro hc
    have := (hC.bounds x (hl x hx)).2
    omega
  rw [hmapcongr _ (fun x hx => (List.takeWhile_sublist _).mem hx),
    hmapcongr _ (fun x hx => (List.dropWhile_sublist _).mem hx)]
  rw [insertFresh_entry, if_pos rfl]
  rw [insSorted, entries_eq hC]
  have hpB : (fun x => less (s.heap.entry x) e) = pBefore s.heap e := rfl
  rw [map_takeWhile s.heap.entry (fun y => less y e) (C 0),
    map_dropWhile s.heap.entry (fun y => less y e) (C 0), hpB]

theorem entries_removeLocked {s : SkipList} {C : Nat → List Nat}
    (hC : ChainsOK s C) {u : UserID} {v : Nat}
    (hlk : lookupUser s.byUser u = some v) :
    entries (removeLocked s u (s.heap.entry v)) = delUser u (entries s) := by
  obtain ⟨hC', _, hent, _, _, _⟩ := removeLocked_wf hC hlk
  rw [entries_eq hC']
  have hmapcongr :
      ((C 0).filter (fun x => x ≠ v)).map
          (removeLocked s u (s.heap.entry v)).heap.entry =
        ((C 0).filter (fun x => x ≠ v)).map s.heap.entry := by
    refine List.map_congr_left ?_
    intro x _
    exact hent x
  rw [hmapcongr]
  rw [delUser, entries_eq hC]
  symm
  refine map_filter_congr s.heap.entry _ _ (C 0) ?_
  intro x hx
  by_cases hxv : x = v
  · subst hxv
    have hvu : (s.heap.entry x).user = u := (hC.idx_user u x hlk).2
    simp [hvu]
  · have hxu : (s.heap.entry x).user ≠ u := by
      intro hc
      have h1 := hC.user_idx x hx
      rw [hc, hlk] at h1
      injection h1 with h1
      exact hxv h1.symm
    simp [hxu, hxv]

theorem entries_update {s : SkipList} (hW : WF s) (u : UserID) (sc : Int) :
    entries (Update s u sc) =
      insSorted { user := u, score := sc } (delUser u (entries s)) := by
  obtain ⟨C, hC⟩ := hW
  cases hlkp : lookupUser s.byUser u with
  | none =>
    rw [Update_eq_absent sc hlkp, entries_insertFresh hC hlkp,
      delUser_eq_self hC hlkp]
  | some v =>
    rw [Update_eq_present sc hlkp]
    obtain ⟨hC1, hby, _, _, _, _⟩ := removeLocked_wf hC hlkp
    have habs : lookupUser (removeLocked s u (s.heap.entry v)).byUser u = none := by
      rw [hby]
      exact lookup_erase_self s.byUser u
    rw [entries_insertFresh hC1 habs, entries_removeLocked hC hlkp]

theorem entries_remove {s : SkipList} (hW : WF s) (u : UserID) :
    entries (Remove s u) = delUser u (entries s) := by
  obtain ⟨C, hC⟩ := hW
  cases hlkp : lookupUser s.byUser u with
  | none =>
    rw [Remove_eq_absent hlkp, delUser_eq_self hC hlkp]
  | some v =>
    rw [Remove_eq_present hlkp]
    exact entries_removeLocked hC hlkp

/-! ## Ranked-order facts about the observable entry list -/

theorem entries_sorted {s : SkipList} {C : Nat → List Nat} (hC : ChainsOK s C) :
    (entries s).Pairwise (fun a b => less a b = true) := by
  rw [entries_eq hC]
  exact List.pairwise_map.mpr hC.sorted

theorem entries_user_nodup {s : SkipList} {C : Nat → List Nat} (hC : ChainsOK s C) :
    ((entries s).map Entry.user).Nodup := by
  rw [entries_eq hC, List.map_map]
  have h1 : (C 0).Pairwise
      (fun a b => (s.heap.entry a).user ≠ (s.heap.entry b).user) := by
    refine List.Pairwise.imp_of_mem ?_ hC.sorted
    intro a b ha hb hab hequ
    have h2 := hC.user_idx a ha
    have h3 := hC.user_idx b hb
    rw [hequ] at h2
    have hab' : a = b := by
      have h4 := h2.symm.trans h3
      injection h4
    subst hab'
    rw [pLess, less_irrefl] at hab
    exact Bool.false_ne_true hab
  exact List.pairwise_map.mpr h1

theorem topn_sublist_entries {s : SkipList} {C : Nat → List Nat}
    (hC : ChainsOK s C) (n : Int) : List.Sublist (TopN s n) (entries s) := by
  rw [topN_eq hC n]
  by_cases hn : n ≤ 0
  · rw [if_pos hn]
    exact List.nil_sublist _
  · rw [if_neg hn]
    exact List.take_sublist _ _

theorem Get_congr {s s' : SkipList} {w : UserID}
    (h : scoreOf s w = scoreOf s' w) : Get s w = Get s' w := by
  cases hs : scoreOf s' w with
  | none => rw [Get_notfound (h.trans hs), Get_notfound hs]
  | some e0 => rw [Get_found (h.trans hs), Get_found hs]

theorem delUser_insSorted {e : Entry} {u : UserID} (hu : e.user = u)
    (l : List Entry) : delUser u (insSorted e l) = delUser u l := by
  subst hu
  rw [insSorted, delUser, delUser, List.filter_append, List.filter_cons]
  have hd : (decide (e.user ≠ e.user)) = false := by simp
  rw [hd]
  simp only [Bool.false_eq_true, if_false]
  rw [← List.filter_append, List.takeWhile_append_dropWhile]

theorem delUser_idem (u : UserID) (l : List Entry) :
    delUser u (delUser u l) = delUser u l := by
  rw [delUser, delUser, List.filter_eq_self]
  intro a ha
  exact (List.mem_filter.mp ha).2

/-! ## Observable determinism across runs -/

theorem applyOps_cons (op : Op) (rest : List Op) (s : SkipList) :
    applyOps (op :: rest) s = applyOps rest (applyOp s op) := rfl

theorem obs_eq_applyOps :
    ∀ (ops : List Op) {s₁ s₂ : SkipList}, WF s₁ → WF s₂ →
      entries s₁ = entries s₂ → (∀ u, scoreOf s₁ u = scoreOf s₂ u) →
      WF (applyOps ops s₁) ∧ WF (applyOps ops s₂) ∧
      entries (applyOps ops s₁) = entries (applyOps ops s₂) ∧
      ∀ u, scoreOf (applyOps ops s₁) u = scoreOf (applyOps ops s₂) u := by
  intro ops
  induction ops with
  | nil =>
    intro s₁ s₂ hW₁ hW₂ he hs
    exact ⟨hW₁, hW₂, he, hs⟩
  | cons op rest ih =>
    intro s₁ s₂ hW₁ hW₂ he hs
    rw [applyOps_cons, applyOps_cons]
    refine ih (applyOp_wf hW₁ op) (applyOp_wf hW₂ op) ?_ ?_
    · cases op with
      | upd u sc =>
        show entries (Update s₁ u sc) = entries (Update s₂ u sc)
        rw [entries_update hW₁ u sc, entries_update hW₂ u sc, he]
      | rem u =>
        show entries (Remove s₁ u) = entries (Remove s₂ u)
        rw [entries_remove hW₁ u, entries_remove hW₂ u, he]
    · intro w
      cases op with
      | upd u sc =>
        show scoreOf (Update s₁ u sc) w = scoreOf (Update s₂ u sc) w
        by_cases hwu : w = u
        · subst hwu
          rw [scoreOf_update_self, scoreOf_update_self]
        · rw [scoreOf_update_other hW₁ hwu sc, scoreOf_update_other hW₂ hwu sc]
          exact hs w
      | rem u =>
        show scoreOf (Remove s₁ u) w = scoreOf (Remove s₂ u) w
        by_cases hwu : w = u
        · subst hwu
          rw [scoreOf_remove_self hW₁ w, scoreOf_remove_self hW₂ w]
        · rw [scoreOf_remove_other hW₁ hwu, scoreOf_remove_other hW₂ hwu]
          exact hs w

theorem entries_new (rng : Nat → Bool) : entries (NewSkipList rng) = [] := by
  rw [entries_eq (NewSkipList_wf rng)]
  rfl

theorem scoreOf_new (rng : Nat → Bool) (u : UserID) :
    scoreOf (NewSkipList rng) u = none := rfl

/-! ## The claims -/

/-- C1: for every finite sequence of `Update`/`Remove` calls applied to a
freshly constructed `SkipList` and for every k, `TopN k` is sorted strictly
by descending score with ties broken by ascending user identifier, and
contains no two entries with the same user. -/
theorem c1_topn_order_invariant (ops : List Op) (rng : Nat → Bool) (k : Int) :
    ((TopN (applyOps ops (NewSkipList rng)) k).Pairwise
      (fun a b => b.score < a.score ∨ (a.score = b.score ∧ a.user < b.user))) ∧
    ((TopN (applyOps ops (NewSkipList rng)) k).map Entry.user).Nodup := by
  obtain ⟨C, hC⟩ := applyOps_wf ops rng
  constructor
  · have hs := (entries_sorted hC).sublist (topn_sublist_entries hC k)
    exact hs.imp (fun hab => less_iff.mp hab)
  · exact (entries_user_nodup hC).sublist
      ((topn_sublist_entries hC k).map Entry.user)

/-- C2: immediately after `Update u s`, `Get u` returns the entry
`{user := u, score := s}` together with found = true (for any state,
hence in particular any reachable one). -/
theorem c2_get_after_update (s : SkipList) (u : UserID) (sc : Int) :
    Get (Update s u sc) u = ({ user := u, score := sc }, true) :=
  Get_found (scoreOf_update_self s u sc)

/-- C3: on any reachable state, immediately after `Remove u`, `Get u`
returns the zero Entry with found = false, and no `TopN n` contains an
entry of user `u`. -/
theorem c3_remove_deletes (ops : List Op) (rng : Nat → Bool) (u : UserID)
    (n : Int) :
    Get (Remove (applyOps ops (NewSkipList rng)) u) u =
      ({ user := "", score := 0 }, false) ∧
    ∀ e0 ∈ TopN (Remove (applyOps ops (NewSkipList rng)) u) n, e0.user ≠ u := by
  have hW := applyOps_wf ops rng
  constructor
  · exact Get_notfound (scoreOf_remove_self hW u)
  · intro e0 he0
    obtain ⟨C', hC'⟩ := Remove_wf hW u
    have hmem : e0 ∈ entries (Remove (applyOps ops (NewSkipList rng)) u) :=
      (topn_sublist_entries hC' n).mem he0
    rw [entries_remove hW u, delUser] at hmem
    have := (List.mem_filter.mp hmem).2
    simpa using this

/-- C4: on any reachable state, calling `Update u s` twice in a row yields
the same `Get` result for every user and the same `TopN` sequence for every
n as calling it once, whatever levels the second call draws. -/
theorem c4_update_idempotent (ops : List Op) (rng : Nat → Bool) (u : UserID)
    (sc : Int) :
    (∀ w, Get (Update (Update (applyOps ops (NewSkipList rng)) u sc) u sc) w =
      Get (Update (applyOps ops (NewSkipList rng)) u sc) w) ∧
    ∀ n, TopN (Update (Update (applyOps ops (NewSkipList rng)) u sc) u sc) n =
      TopN (Update (applyOps ops (NewSkipList rng)) u sc) n := by
  have hW := applyOps_wf ops rng
  have hW1 := Update_wf hW u sc
  have hW2 := Update_wf hW1 u sc
  have hent :
      entries (Update (Update (applyOps ops (NewSkipList rng)) u sc) u sc) =
        entries (Update (applyOps ops (NewSkipList rng)) u sc) := by
    rw [entries_update hW1 u sc, entries_update hW u sc,
      delUser_insSorted (show ({ user := u, score := sc } : Entry).user = u from rfl),
      delUser_idem]
  constructor
  · intro w
    by_cases hwu : w = u
    · subst hwu
      rw [Get_found (scoreOf_update_self _ w sc),
        Get_found (scoreOf_update_self _ w sc)]
    · exact Get_congr (scoreOf_update_other hW1 hwu sc)
  · intro n
    obtain ⟨C2, hC2⟩ := hW2
    obtain ⟨C1, hC1⟩ := hW1
    rw [topN_eq hC2, topN_eq hC1, hent]

/-- C5: on any reachable state, `TopN n` is empty for `n ≤ 0` or an empty
board, is all entries in ranked order when `n` exceeds the number of stored
entries, and is otherwise exactly the first n entries in ranked order. -/
theorem c5_topn_bounds (ops : List Op) (rng : Nat → Bool) (n : Int) :
    (n ≤ 0 → TopN (applyOps ops (NewSkipList rng)) n = []) ∧
    (entries (applyOps ops (NewSkipList rng)) = [] →
      TopN (applyOps ops (NewSkipList rng)) n = []) ∧
    (0 < n → (entries (applyOps ops (NewSkipList rng))).length ≤ n.toNat →
      TopN (applyOps ops (NewSkipList rng)) n =
        entries (applyOps ops (NewSkipList rng))) ∧
    (0 < n → TopN (applyOps ops (NewSkipList rng)) n =
      (entries (applyOps ops (NewSkipList rng))).take n.toNat) := by
  obtain ⟨C, hC⟩ := applyOps_wf ops rng
  refine ⟨?_, ?_, ?_, ?_⟩
  · intro hn
    rw [topN_eq hC, if_pos hn]
  · intro he
    rw [topN_eq hC]
    by_cases hn : n ≤ 0
    · rw [if_pos hn]
    · rw [if_neg hn, he, List.take_nil]
  · intro hn hlen
    rw [topN_eq hC, if_neg (by omega)]
    exact List.take_of_length_le hlen
  · intro hn
    rw [topN_eq hC, if_neg (by omega)]

/-- C6: `Remove u` on a state where `u` is absent is a no-op: the state is
literally unchanged, so `Get` and `TopN` answer as before. -/
theorem c6_remove_absent_noop (s : SkipList) (u : UserID)
    (h : (Get s u).2 = false) :
    Remove s u = s ∧ (∀ w, Get (Remove s u) w = Get s w) ∧
      ∀ n, TopN (Remove s u) n = TopN s n := by
  have hlkp : lookupUser s.byUser u = none := by
    cases hl : lookupUser s.byUser u with
    | none => rfl
    | some v =>
      simp only [Get, hl] at h
      exact absurd h (by simp)
  have hre := Remove_eq_absent hlkp
  exact ⟨hre, fun w => by rw [hre], fun n => by rw [hre]⟩

/-- Witness for C6 at a concrete input: the fresh board does not contain
user "a", and removing "a" leaves it unchanged. -/
theorem c6_remove_absent_noop_witness :
    (Get (NewSkipList (fun _ => false)) "a").2 = false ∧
      Remove (NewSkipList (fun _ => false)) "a" = NewSkipList (fun _ => false) :=
  ⟨rfl, (c6_remove_absent_noop (NewSkipList (fun _ => false)) "a" rfl).1⟩

/-- C7: `randomLevel` starts the candidate level at 1, adds one per
consecutive successful flip, and stops at the first failure or at the
ceiling 16; consequently the result always lies in [1, 16]. -/
theorem c7_random_level (s : SkipList) :
    (randomLevel s).1 = 1 + streak s.rng s.pos (maxLevel - 1) ∧
    1 ≤ (randomLevel s).1 ∧ (randomLevel s).1 ≤ 16 := by
  have hspec := randomLevelAux_spec s.rng (maxLevel - 1) s.pos 1 (by rw [maxLevel])
  rw [randomLevel, hspec]
  have hle := streak_le s.rng (maxLevel - 1) s.pos
  refine ⟨rfl, ?_, ?_⟩
  · show 1 ≤ 1 + streak s.rng s.pos (maxLevel - 1)
    omega
  · show 1 + streak s.rng s.pos (maxLevel - 1) ≤ 16
    have h15 : maxLevel - 1 = 15 := by rw [maxLevel]
    rw [h15] at hle ⊢
    omega

/-- C8: after any reachable sequence of mutations, the current max level is
in [1, 16], every level at or above it is empty at the head, and either the
level is 1 or the topmost level still has content. -/
theorem c8_level_invariant (ops : List Op) (rng : Nat → Bool) :
    1 ≤ (applyOps ops (NewSkipList rng)).lvl ∧
    (applyOps ops (NewSkipList rng)).lvl ≤ 16 ∧
    (∀ i, (applyOps ops (NewSkipList rng)).lvl ≤ i →
      (applyOps ops (NewSkipList rng)).heap.link 0 i = none) ∧
    ((applyOps ops (NewSkipList rng)).lvl = 1 ∨
      (applyOps ops (NewSkipList rng)).heap.link 0
        ((applyOps ops (NewSkipList rng)).lvl - 1) ≠ none) := by
  obtain ⟨C, hC⟩ := applyOps_wf ops rng
  refine ⟨hC.lvl_lb, ?_, ?_, ?_⟩
  · have h16 := hC.lvl_ub
    rw [maxLevel] at h16
    exact h16
  · intro i hi
    have hch := hC.chain i
    rw [hC.top_empty i hi] at hch
    exact hch
  · rcases hC.top_content with h1 | h1
    · exact Or.inl h1
    · refine Or.inr ?_
      have hch := hC.chain ((applyOps ops (NewSkipList rng)).lvl - 1)
      cases hCc : C ((applyOps ops (NewSkipList rng)).lvl - 1) with
      | nil => exact absurd hCc h1
      | cons b l =>
        rw [hCc] at hch
        simp only [IsChain] at hch
        intro hc
        have h2 : (applyOps ops (NewSkipList rng)).heap.link 0
            ((applyOps ops (NewSkipList rng)).lvl - 1) = some b := hch.1
        rw [hc] at h2
        exact absurd h2 (by simp)

/-- C9: two runs of the same sequence of `Update`/`Remove` calls that differ
only in the random streams observably agree: same `TopN` for every n and
same `Get` for every user. -/
theorem c9_rng_independent (ops : List Op) (rng₁ rng₂ : Nat → Bool) :
    (∀ n, TopN (applyOps ops (NewSkipList rng₁)) n =
      TopN (applyOps ops (NewSkipList rng₂)) n) ∧
    ∀ u, Get (applyOps ops (NewSkipList rng₁)) u =
      Get (applyOps ops (NewSkipList rng₂)) u := by
  obtain ⟨hW₁, hW₂, he, hs⟩ := obs_eq_applyOps ops
    ⟨_, NewSkipList_wf rng₁⟩ ⟨_, NewSkipList_wf rng₂⟩
    (by rw [entries_new, entries_new]) (fun u => rfl)
  constructor
  · intro n
    obtain ⟨C1, hC1⟩ := hW₁
    obtain ⟨C2, hC2⟩ := hW₂
    rw [topN_eq hC1, topN_eq hC2, he]
  · intro u
    exact Get_congr (hs u)

end GamifyKit
